import Mathlib

/-!
# Verification of the flat-json (jsonbb) binary JSON value core

This file gives a shallow embedding of the jsonbb core:

* `src/entry.rs` — the tagged 32-bit `Entry` (3-bit tag, 29-bit offset) and
  the number-record kind bytes, embedded faithfully from the source.
* `src/value.rs` — the owned `Value`: `from_bytes`/`as_bytes`, `array_push`
  (byte-splicing, embedded faithfully from the source), `object_insert`
  (whose source body is `todo!()`).
* The builder and the borrowed view layer (`Builder`, `ValueRef`, comparison,
  `Display`) are part of the repository but their source files are not in the
  snapshot; those definitions are modelled from the specification and are
  marked `Modelled from the spec:` in their doc comments.

Buffers are modelled as `List ℕ` of bytes; native byte order is modelled as
little-endian.  Machine integers are `ℕ`/`ℤ` with explicit truncation.
-/

set_option maxHeartbeats 1600000

namespace Jsonbb

/-- Three-way comparison derived from a linear order
(`if a < b then lt else if a = b then eq else gt`). -/
def cmp3 {α : Type} [LinearOrder α] (a b : α) : Ordering :=
  if a < b then .lt else if a = b then .eq else .gt

/-- Modelled from the spec: the logical content of a number record.
`int n` covers the signed kinds `0x00/0x01/0x02/0x04/0x08` and the unsigned
kind `0x18`; `float m k` is a finite `f64`, identified with the decimal
`m / 10^(k+1)` produced by its shortest round-trip decimal rendering
(the fractional part has `k+1` digits). -/
inductive JNum : Type where
  | int (n : ℤ)
  | float (m : ℤ) (k : ℕ)
  deriving DecidableEq

/-- The numeric (mathematical) value of a number, as a rational. -/
def JNum.q : JNum → ℚ
  | .int n => n
  | .float m k => (m : ℚ) / (10 : ℚ) ^ (k + 1)

/-- Modelled from the spec: the logical JSON value (§3 data model). -/
inductive Json : Type where
  | null
  | bool (b : Bool)
  | num (n : JNum)
  | str (s : String)
  | arr (xs : List Json)
  | obj (kvs : List (String × Json))

/-- Modelled from the spec: kind-class rank for ordering,
`Object > Array > Boolean > Number > String > Null` (§4.3). -/
def Json.rank : Json → ℕ
  | .null => 0
  | .str _ => 1
  | .num _ => 2
  | .bool _ => 3
  | .arr _ => 4
  | .obj _ => 5

/-- Codepoint of a character as a natural number. -/
def charNat (c : Char) : ℕ := c.toNat

/-- Modelled from the spec: string comparison, lexicographic over UTF-8 bytes,
which for valid UTF-8 coincides with code-point lexicographic order (§3, §4.3). -/
def strCmp (a b : String) : Ordering :=
  let rec go : List Char → List Char → Ordering
    | [], [] => .eq
    | [], _ :: _ => .lt
    | _ :: _, [] => .gt
    | x :: xs, y :: ys => (cmp3 (charNat x) (charNat y)).then (go xs ys)
  go a.data b.data

/-- `a < b` in the canonical key order. -/
def strLtb (a b : String) : Bool := strCmp a b == .lt

mutual
/-- Modelled from the spec: the total order on values (§4.3 Ordering):
kind class first, then booleans `true > false`, numbers by numeric value,
strings lexicographically, arrays by length then element-wise, objects by
length then flattened `(key, value)` pairs in sorted key order. -/
def jcmp : Json → Json → Ordering
  | .null, .null => .eq
  | .bool a, .bool b => cmp3 a b
  | .num a, .num b => cmp3 a.q b.q
  | .str a, .str b => strCmp a b
  | .arr a, .arr b => (cmp3 a.length b.length).then (jcmpL a b)
  | .obj a, .obj b => (cmp3 a.length b.length).then (jcmpKV a b)
  | a, b => cmp3 a.rank b.rank

/-- Element-wise comparison of array elements. -/
def jcmpL : List Json → List Json → Ordering
  | [], [] => .eq
  | [], _ :: _ => .lt
  | _ :: _, [] => .gt
  | x :: xs, y :: ys => (jcmp x y).then (jcmpL xs ys)

/-- Pair-wise comparison of object members, `(key₁, value₁, key₂, …)`. -/
def jcmpKV : List (String × Json) → List (String × Json) → Ordering
  | [], [] => .eq
  | [], _ :: _ => .lt
  | _ :: _, [] => .gt
  | (k, v) :: xs, (k2, v2) :: ys =>
      (strCmp k k2).then ((jcmp v v2).then (jcmpKV xs ys))
end

/-- Modelled from the spec: insert one `(key, value)` pair into an already
sorted member list; an equal key is replaced, so the later write wins
(§4.2 `end_object` semantics). -/
def insertKV (kv : String × Json) : List (String × Json) → List (String × Json)
  | [] => [kv]
  | p :: rest =>
    if kv.1 = p.1 then kv :: rest
    else if strLtb kv.1 p.1 then kv :: p :: rest
    else p :: insertKV kv rest

/-- Modelled from the spec: `end_object` canonicalization — the collected
members, in insertion order, are sorted by key bytes with
last-write-wins on duplicate keys (§4.2 steps 1-2). -/
def mkObj (kvs : List (String × Json)) : List (String × Json) :=
  kvs.foldl (fun acc kv => insertKV kv acc) []

/-- Keys strictly ascending in the canonical byte order. -/
def sortedKeysB : List (String × Json) → Bool
  | [] => true
  | [_] => true
  | p :: q :: rest => strLtb p.1 q.1 && sortedKeysB (q :: rest)

mutual
/-- Modelled from the spec: the valid domain of owned values (§3 invariants):
integer numbers fit the i64/u64 kinds and every object inside is sorted
ascending with unique keys. -/
def wf : Json → Bool
  | .null => true
  | .bool _ => true
  | .num (.int n) => decide (-(2 : ℤ) ^ 63 ≤ n) && decide (n < 2 ^ 64)
  | .num (.float _ _) => true
  | .str _ => true
  | .arr xs => wfL xs
  | .obj kvs => sortedKeysB kvs && wfKV kvs

/-- Well-formedness of a list of array elements. -/
def wfL : List Json → Bool
  | [] => true
  | x :: xs => wf x && wfL xs

/-- Well-formedness of the values of an object member list. -/
def wfKV : List (String × Json) → Bool
  | [] => true
  | p :: ps => wf p.2 && wfKV ps
end

/-- The character for decimal digit `d`. -/
def digitChar (d : ℕ) : Char := Char.ofNat (48 + d)

/-- Decimal digits, most significant first; `fuel` bounds the digit count. -/
def natDigsF : ℕ → ℕ → List Char
  | 0, _ => []
  | fuel + 1, n =>
    if n < 10 then [digitChar n]
    else natDigsF fuel (n / 10) ++ [digitChar (n % 10)]

/-- Decimal digits of a natural number, most significant first. -/
def natDigs (n : ℕ) : List Char := natDigsF (n + 1) n

/-- Digits of `n` left-padded with zeros to width `w`. -/
def padDigs (w : ℕ) (n : ℕ) : List Char :=
  List.replicate (w - (natDigs n).length) '0' ++ natDigs n

/-- Modelled from the spec: textual form of a number — integers in decimal,
floats as their shortest round-trip decimal `int.frac` with `k+1` fractional
digits (§4.3 textual rendering). -/
def numText : JNum → List Char
  | .int n => if n < 0 then '-' :: natDigs n.natAbs else natDigs n.toNat
  | .float m k =>
      let a := m.natAbs / 10 ^ (k + 1)
      let b := m.natAbs % 10 ^ (k + 1)
      let core := natDigs a ++ '.' :: padDigs (k + 1) b
      if m < 0 then '-' :: core else core

/-- Lowercase hexadecimal digit character. -/
def hexDigit (d : ℕ) : Char :=
  if d < 10 then Char.ofNat (48 + d) else Char.ofNat (87 + d)

/-- Four hexadecimal digits of `n % 0x10000`, most significant first. -/
def hex4 (n : ℕ) : List Char :=
  [hexDigit (n / 4096 % 16), hexDigit (n / 256 % 16),
   hexDigit (n / 16 % 16), hexDigit (n % 16)]

/-- Modelled from the spec: JSON string escaping — `"` and `\` are escaped,
control characters below 0x20 as `\u00XX`, code points above U+FFFF as a
`\u` surrogate pair (§4.3 textual rendering). -/
def escChar (c : Char) : List Char :=
  if c = '"' then ['\\', '"']
  else if c = '\\' then ['\\', '\\']
  else if charNat c < 0x20 then '\\' :: 'u' :: hex4 (charNat c)
  else if 0xFFFF < charNat c then
    '\\' :: 'u' :: hex4 (0xD800 + (charNat c - 0x10000) / 0x400) ++
      '\\' :: 'u' :: hex4 (0xDC00 + (charNat c - 0x10000) % 0x400)
  else [c]

/-- The escaped body of a string literal. -/
def escStr (s : String) : List Char :=
  s.data.foldr (fun c acc => escChar c ++ acc) []

mutual
/-- Modelled from the spec: compact textual rendering of a value, the
`Display` output (§4.3): standard escaping, objects in stored (sorted)
member order, no whitespace. -/
def printV : Json → List Char
  | .null => ("null").data
  | .bool true => ("true").data
  | .bool false => ("false").data
  | .num n => numText n
  | .str s => '"' :: (escStr s ++ ['"'])
  | .arr [] => ['[', ']']
  | .arr (x :: xs) => '[' :: (printV x ++ printL xs ++ [']'])
  | .obj [] => ['{', '}']
  | .obj (p :: ps) => '{' :: (printKV p ++ printKVs ps ++ ['}'])

/-- Remaining array elements, each preceded by a comma. -/
def printL : List Json → List Char
  | [] => []
  | x :: xs => ',' :: (printV x ++ printL xs)

/-- One object member, `"key":value`. -/
def printKV : String × Json → List Char
  | (k, v) => '"' :: (escStr k ++ '"' :: ':' :: printV v)

/-- Remaining object members, each preceded by a comma. -/
def printKVs : List (String × Json) → List Char
  | [] => []
  | p :: ps => ',' :: (printKV p ++ printKVs ps)
end

/-- The compact printed text of a value, as a `String`. -/
def printJson (j : Json) : String := ⟨printV j⟩

/-- JSON whitespace. -/
def isWsChar (c : Char) : Bool := c = ' ' || c = '\t' || c = '\n' || c = '\r'

/-- Drop leading JSON whitespace. -/
def skipWs (cs : List Char) : List Char := cs.dropWhile isWsChar

/-- Decimal digit test. -/
def isDigitChar (c : Char) : Bool := 48 ≤ charNat c && charNat c ≤ 57

/-- Value of a list of decimal digits. -/
def digsVal (ds : List Char) : ℕ :=
  ds.foldl (fun a c => a * 10 + (charNat c - 48)) 0

/-- Value of one hexadecimal digit character, either case. -/
def hexVal (c : Char) : Option ℕ :=
  if 48 ≤ charNat c ∧ charNat c ≤ 57 then some (charNat c - 48)
  else if 97 ≤ charNat c ∧ charNat c ≤ 102 then some (charNat c - 87)
  else if 65 ≤ charNat c ∧ charNat c ≤ 70 then some (charNat c - 55)
  else none

/-- Parse exactly four hexadecimal digits. -/
def hex4Val : List Char → Option (ℕ × List Char)
  | a :: b :: c :: d :: rest => do
      let x ← hexVal a
      let y ← hexVal b
      let z ← hexVal c
      let w ← hexVal d
      pure (((x * 16 + y) * 16 + z) * 16 + w, rest)
  | _ => none

/-- Short escape sequences of JSON. -/
def escMap (e : Char) : Option Char :=
  if e = '"' then some '"'
  else if e = '\\' then some '\\'
  else if e = '/' then some '/'
  else if e = 'b' then some (Char.ofNat 8)
  else if e = 'f' then some (Char.ofNat 12)
  else if e = 'n' then some '\n'
  else if e = 'r' then some (Char.ofNat 13)
  else if e = 't' then some '\t'
  else none

/-- Modelled from the spec: decoding of one `\u` escape (§6 textual input) —
four hex digits, then either a lone BMP code point or a surrogate pair; `k` is
the continuation parsing the remainder of the string body. -/
def escU (k : List Char → Option (List Char × List Char)) (cs2 : List Char) :
    Option (List Char × List Char) :=
  match hex4Val cs2 with
  | none => none
  | some (n, rest) =>
    if 0xD800 ≤ n ∧ n < 0xDC00 then
      match rest with
      | '\\' :: 'u' :: rest2 =>
        match hex4Val rest2 with
        | none => none
        | some (n2, rest3) =>
          if 0xDC00 ≤ n2 ∧ n2 < 0xE000 then
            (k rest3).map (fun r =>
              (Char.ofNat (0x10000 + (n - 0xD800) * 0x400 + (n2 - 0xDC00)) :: r.1,
               r.2))
          else none
      | _ => none
    else if 0xDC00 ≤ n ∧ n < 0xE000 then none
    else (k rest).map (fun r => (Char.ofNat n :: r.1, r.2))

/-- Modelled from the spec: parser for the body of a JSON string literal
(after the opening quote), handling escapes and `\u` surrogate pairs (§6
textual input); `fuel` bounds the number of decoded characters. -/
def parseSB : ℕ → List Char → Option (List Char × List Char)
  | 0, _ => none
  | _ + 1, [] => none
  | fuel + 1, c :: cs =>
    if c = '"' then some ([], cs)
    else if c = '\\' then
      match cs with
      | [] => none
      | e :: cs2 =>
        if e = 'u' then escU (parseSB fuel) cs2
        else
          match escMap e with
          | none => none
          | some c2 => (parseSB fuel cs2).map (fun r => (c2 :: r.1, r.2))
    else if charNat c < 0x20 then none
    else (parseSB fuel cs).map (fun r => (c :: r.1, r.2))

/-- Modelled from the spec: JSON number token parser; an integer literal that
fits the i64/u64 range becomes an integer kind, a literal with a fractional
part becomes a float whose mantissa keeps all printed digits (§4.2, §6). -/
def parseNum (cs : List Char) : Option (JNum × List Char) :=
  let neg := cs.head? = some '-'
  let cs1 := if neg then cs.tail else cs
  let ds := cs1.takeWhile isDigitChar
  let r1 := cs1.dropWhile isDigitChar
  if ds.isEmpty then none
  else
    let a := digsVal ds
    match r1 with
    | '.' :: r2 =>
      let fs := r2.takeWhile isDigitChar
      let r3 := r2.dropWhile isDigitChar
      if fs.isEmpty then none
      else
        let mAbs : ℤ := ((a * 10 ^ fs.length + digsVal fs : ℕ) : ℤ)
        some (.float (if neg then -mAbs else mAbs) (fs.length - 1), r3)
    | _ =>
      if neg then
        if (a : ℤ) ≤ 2 ^ 63 then some (.int (-(a : ℤ)), r1) else none
      else
        if (a : ℤ) < 2 ^ 64 then some (.int (a : ℤ), r1) else none

mutual
/-- Modelled from the spec: recursive-descent JSON value parser, the external
event producer driving the builder (§6, §4.2); `fuel` bounds recursion.
Objects are canonicalized with `mkObj`, exactly as `end_object` does. -/
def parseV : ℕ → List Char → Option (Json × List Char)
  | 0, _ => none
  | fuel + 1, cs =>
    match skipWs cs with
    | 'n' :: 'u' :: 'l' :: 'l' :: rest => some (.null, rest)
    | 't' :: 'r' :: 'u' :: 'e' :: rest => some (.bool true, rest)
    | 'f' :: 'a' :: 'l' :: 's' :: 'e' :: rest => some (.bool false, rest)
    | '"' :: rest =>
      (parseSB (rest.length + 1) rest).map (fun r => (.str ⟨r.1⟩, r.2))
    | '[' :: rest =>
      (match skipWs rest with
       | ']' :: rest2 => some (.arr [], rest2)
       | cs2 => (parseItems fuel cs2).map (fun r => (.arr r.1, r.2)))
    | '{' :: rest =>
      (match skipWs rest with
       | '}' :: rest2 => some (.obj [], rest2)
       | cs2 => (parseMembers fuel cs2).map (fun r => (.obj (mkObj r.1), r.2)))
    | cs1 => (parseNum cs1).map (fun r => (.num r.1, r.2))

/-- Array elements after `[`: at least one value, comma-separated, up to `]`. -/
def parseItems : ℕ → List Char → Option (List Json × List Char)
  | 0, _ => none
  | fuel + 1, cs =>
    match parseV fuel cs with
    | none => none
    | some (j, rest) =>
      match skipWs rest with
      | ',' :: rest2 => (parseItems fuel rest2).map (fun r => (j :: r.1, r.2))
      | ']' :: rest2 => some ([j], rest2)
      | _ => none

/-- Object members after `{`: at least one `"key":value`, up to `}`. -/
def parseMembers : ℕ → List Char → Option (List (String × Json) × List Char)
  | 0, _ => none
  | fuel + 1, cs =>
    match skipWs cs with
    | '"' :: rest =>
      (match parseSB (rest.length + 1) rest with
       | none => none
       | some (k, rest2) =>
         match skipWs rest2 with
         | ':' :: rest3 =>
           (match parseV fuel rest3 with
            | none => none
            | some (v, rest4) =>
              match skipWs rest4 with
              | ',' :: rest5 =>
                (parseMembers fuel rest5).map (fun r => ((⟨k⟩, v) :: r.1, r.2))
              | '}' :: rest5 => some ([(⟨k⟩, v)], rest5)
              | _ => none)
         | _ => none)
    | _ => none
end

/-- Modelled from the spec: `Value::from_text` at the logical level — parse a
complete JSON text and reject trailing garbage after the root (§6; `serde.rs`
drives the builder via `deserialize`, `from_text` checks end of input). -/
def parseJson (s : String) : Option Json :=
  match parseV (s.data.length + 1) s.data with
  | none => none
  | some (j, rest) => if (skipWs rest).isEmpty then some j else none

/-! ## The byte-level format: `entry.rs` and the buffer layout -/

/-- `Entry::LEN_MASK` from `src/entry.rs`: the low 29 bits. -/
def LEN_MASK : ℕ := 0x1FFFFFFF

/-- `Entry::NULL_TAG`. -/
def NULL_TAG : ℕ := 0
/-- `Entry::STRING_TAG`. -/
def STRING_TAG : ℕ := 1
/-- `Entry::NUMBER_TAG`. -/
def NUMBER_TAG : ℕ := 2
/-- `Entry::FALSE_TAG`. -/
def FALSE_TAG : ℕ := 3
/-- `Entry::TRUE_TAG`. -/
def TRUE_TAG : ℕ := 4
/-- `Entry::ARRAY_TAG`. -/
def ARRAY_TAG : ℕ := 5
/-- `Entry::OBJECT_TAG`. -/
def OBJECT_TAG : ℕ := 6

/-- `Entry::from_u32` composed with the tag/offset packing used by every
constructor in `src/entry.rs`: `(TAG << 29) | offset`.  An entry
`Entry(pub [u8; 4])` is modelled by its `u32` value; native byte order is
modelled as little-endian when entries are written to a buffer. -/
def entryWord (tagv off : ℕ) : ℕ := (tagv <<< 29) ||| off

namespace Entry

/-- `Entry::tag` from `src/entry.rs`: `u32::from_ne_bytes(self.0) >> 29`. -/
def tag (e : ℕ) : ℕ := e >>> 29

/-- `Entry::offset` from `src/entry.rs`: the low 29 bits. -/
def offset (e : ℕ) : ℕ := e &&& LEN_MASK

/-- `Entry::null()`. -/
def null : ℕ := entryWord NULL_TAG 0

/-- `Entry::false_()`. -/
def false_ : ℕ := entryWord FALSE_TAG 0

/-- `Entry::true_()`. -/
def true_ : ℕ := entryWord TRUE_TAG 0

/-- `Entry::bool(b)`. -/
def bool (b : Bool) : ℕ := if b then true_ else false_

/-- `Entry::number(offset)` from `src/entry.rs`; the
`assert!(offset <= LEN_MASK)` (a panic) is modelled by `none`. -/
def number (off : ℕ) : Option ℕ :=
  if off ≤ LEN_MASK then some (entryWord NUMBER_TAG off) else none

/-- `Entry::string(offset)`, with the same overflow assert. -/
def string (off : ℕ) : Option ℕ :=
  if off ≤ LEN_MASK then some (entryWord STRING_TAG off) else none

/-- `Entry::array(offset)`, with the same overflow assert. -/
def array (off : ℕ) : Option ℕ :=
  if off ≤ LEN_MASK then some (entryWord ARRAY_TAG off) else none

/-- `Entry::object(offset)`, with the same overflow assert. -/
def object (off : ℕ) : Option ℕ :=
  if off ≤ LEN_MASK then some (entryWord OBJECT_TAG off) else none

/-- `Entry::set_offset` from `src/entry.rs`: keep the tag, replace the
offset, same overflow assert. -/
def set_offset (e off : ℕ) : Option ℕ :=
  if off ≤ LEN_MASK then some (entryWord (tag e) off) else none

end Entry

/-- `NUMBER_ZERO` from `src/entry.rs`. -/
def NUMBER_ZERO : ℕ := 0x0
/-- `NUMBER_I8` from `src/entry.rs`. -/
def NUMBER_I8 : ℕ := 0x1
/-- `NUMBER_I16` from `src/entry.rs`. -/
def NUMBER_I16 : ℕ := 0x2
/-- `NUMBER_I32` from `src/entry.rs`. -/
def NUMBER_I32 : ℕ := 0x4
/-- `NUMBER_I64` from `src/entry.rs`. -/
def NUMBER_I64 : ℕ := 0x8
/-- `NUMBER_U64` from `src/entry.rs`. -/
def NUMBER_U64 : ℕ := 0x18
/-- `NUMBER_F64` from `src/entry.rs`. -/
def NUMBER_F64 : ℕ := 0x28

/-- `number_size` from `src/entry.rs`: the payload size is the low nibble of
the kind byte: `(tag & 0xF) as usize`. -/
def number_size (t : ℕ) : ℕ := t &&& 0xF

/-- Little-endian bytes of `n`, `w` bytes wide. -/
def leBytes : ℕ → ℕ → List ℕ
  | 0, _ => []
  | w + 1, n => n % 256 :: leBytes w (n / 256)

/-- A 4-byte little-endian word, as written by `put_u32_ne` (native order
modelled little-endian). -/
def le32 (n : ℕ) : List ℕ := leBytes 4 n

/-- Value of a little-endian byte list. -/
def leVal : List ℕ → ℕ
  | [] => 0
  | b :: bs => b + 256 * leVal bs

/-- Read the 4-byte word starting at byte offset `off`. -/
def read32 (buf : List ℕ) (off : ℕ) : ℕ := leVal ((buf.drop off).take 4)

/-- Two's-complement `w`-byte little-endian payload of `v`. -/
def intBytes (w : ℕ) (v : ℤ) : List ℕ := leBytes w (v % ((2 : ℤ) ^ (8 * w))).toNat

/-- Modelled from the spec: `Builder::add_i64` — append the narrowest legal
number record: kind `0x00` with no payload for zero, otherwise the narrowest
of i8/i16/i32/i64 (§4.2 numeric narrowing; kind bytes from `src/entry.rs`). -/
def addI64 (v : ℤ) : List ℕ :=
  if v = 0 then [NUMBER_ZERO]
  else if -(2 : ℤ) ^ 7 ≤ v ∧ v < 2 ^ 7 then NUMBER_I8 :: intBytes 1 v
  else if -(2 : ℤ) ^ 15 ≤ v ∧ v < 2 ^ 15 then NUMBER_I16 :: intBytes 2 v
  else if -(2 : ℤ) ^ 31 ≤ v ∧ v < 2 ^ 31 then NUMBER_I32 :: intBytes 4 v
  else NUMBER_I64 :: intBytes 8 v

/-- Modelled from the spec: `Builder::add_u64` — values within i64's positive
range use the signed kinds, strictly larger values kind `0x18` (§4.2). -/
def addU64 (v : ℕ) : List ℕ :=
  if v ≤ 2 ^ 63 - 1 then addI64 v else NUMBER_U64 :: leBytes 8 v

/-- Modelled from the spec: `Builder::add_f64` appends kind `0x28` and an
8-byte native-order f64 payload (§4.2).  No verified claim inspects the f64
bit pattern, so the IEEE-754 rounding step is abstracted by an 8-byte
function of the decimal value. -/
def addF64 (m : ℤ) (k : ℕ) : List ℕ :=
  NUMBER_F64 :: leBytes 8 ((m % (2 : ℤ) ^ 52).toNat + 2 ^ 52 * (k % 2 ^ 12))

/-- Read a number record back: the kind byte, then `number_size` payload
bytes, signed kinds sign-extended (§3 number record).  The f64 kind is left
abstract. -/
def decodeNum (bs : List ℕ) : Option JNum :=
  match bs with
  | [] => none
  | kind :: payload =>
    if payload.length ≠ number_size kind then none
    else if kind = NUMBER_ZERO then some (.int 0)
    else if kind = NUMBER_I8 ∨ kind = NUMBER_I16 ∨ kind = NUMBER_I32 ∨ kind = NUMBER_I64 then
      some (.int (if leVal payload < 2 ^ (8 * payload.length - 1) then (leVal payload : ℤ)
                  else (leVal payload : ℤ) - 2 ^ (8 * payload.length)))
    else if kind = NUMBER_U64 then some (.int (leVal payload : ℤ))
    else none

/-- UTF-8 encoding of one character (§3 string record). -/
def utf8Char (c : Char) : List ℕ :=
  let v := charNat c
  if v < 0x80 then [v]
  else if v < 0x800 then [0xC0 + v / 64, 0x80 + v % 64]
  else if v < 0x10000 then [0xE0 + v / 4096, 0x80 + v / 64 % 64, 0x80 + v % 64]
  else [0xF0 + v / 262144, 0x80 + v / 4096 % 64, 0x80 + v / 64 % 64, 0x80 + v % 64]

/-- UTF-8 bytes of a string. -/
def utf8Str (s : String) : List ℕ :=
  s.data.foldr (fun c acc => utf8Char c ++ acc) []

/-- A string record: `u32` length then the UTF-8 bytes, no terminator (§3). -/
def strRecord (s : String) : List ℕ := le32 (utf8Str s).length ++ utf8Str s

/-- The entry word referencing a value whose `len` bytes start at relative
offset `off` within the current container region: null/booleans are fully
inline, scalars point at their record, containers one past their `size`
word (§3). -/
def entryForLen (j : Json) (off len : ℕ) : ℕ :=
  match j with
  | .null => entryWord NULL_TAG 0
  | .bool b => if b then entryWord TRUE_TAG 0 else entryWord FALSE_TAG 0
  | .num _ => entryWord NUMBER_TAG off
  | .str _ => entryWord STRING_TAG off
  | .arr _ => entryWord ARRAY_TAG (off + len)
  | .obj _ => entryWord OBJECT_TAG (off + len)

mutual
/-- Modelled from the spec: the bytes of one value as the builder writes
them — nothing for null/booleans, a number or string record for scalars, and
for containers the region `elements ++ packed entries ++ count ++ size`,
where `size` spans from the first element byte through the size word (§3,
§4.2). -/
def encVal : Json → List ℕ
  | .null => []
  | .bool _ => []
  | .num (.int n) => if n < 0 then addI64 n else addU64 n.toNat
  | .num (.float m k) => addF64 m k
  | .str s => strRecord s
  | .arr xs =>
    let r := encItems xs 0
    r.1 ++ r.2 ++ le32 xs.length ++ le32 (r.1.length + r.2.length + 8)
  | .obj kvs =>
    let r := encMembers kvs 0
    r.1 ++ r.2 ++ le32 kvs.length ++ le32 (r.1.length + r.2.length + 8)

/-- Element bytes and packed entry words of array elements whose first byte
sits at relative offset `off` within the container region. -/
def encItems : List Json → ℕ → List ℕ × List ℕ
  | [], _ => ([], [])
  | j :: rest, off =>
    let b := encVal j
    let r := encItems rest (off + b.length)
    (b ++ r.1, le32 (entryForLen j off b.length) ++ r.2)

/-- Member bytes (key record then value bytes, in order) and the packed
key-entry/value-entry words of object members (§3 object trailer). -/
def encMembers : List (String × Json) → ℕ → List ℕ × List ℕ
  | [], _ => ([], [])
  | (k, v) :: rest, off =>
    let kb := strRecord k
    let vb := encVal v
    let r := encMembers rest (off + kb.length + vb.length)
    (kb ++ vb ++ r.1,
     le32 (entryWord STRING_TAG off) ++ le32 (entryForLen v (off + kb.length) vb.length)
       ++ r.2)
end

/-- The entry word for a value placed at relative offset `off`. -/
def entryFor (j : Json) (off : ℕ) : ℕ := entryForLen j off (encVal j).length

/-- Modelled from the spec: the canonical complete buffer of a value — the
value's bytes followed by the 4-byte root entry (§3 root). -/
def encRoot (j : Json) : List ℕ := encVal j ++ le32 (entryFor j 0)

/-- Modelled from the spec: `ValueRef::make_entry` — the entry for this value
when its bytes are spliced in at `offset`; built with the asserting entry
constructors of `src/entry.rs` (§4.1, §4.2 `add_value`). -/
def makeEntry (j : Json) (off : ℕ) : Option ℕ :=
  match j with
  | .null => some Entry.null
  | .bool b => some (Entry.bool b)
  | .num _ => Entry.number off
  | .str _ => Entry.string off
  | .arr _ => Entry.array (off + (encVal j).length)
  | .obj _ => Entry.object (off + (encVal j).length)

/-- `Value::array_push` from `src/value.rs`, step by step: read the array
length through the view (`as_array().len()`: root entry in the last 4 bytes,
count 8 bytes below the root offset — view reads modelled from the spec §3);
compute the splice offset `len - 4 - 4 - 4 - 4*len`; drop the trailing
`(count, size, entry)` 12 bytes; splice the new value's bytes at the end of
the element region; append its entry, the new count, the new size
(`buffer.len() + 4`), and the new root entry (`Entry::array(buffer.len())`).
The `expect("not array")` and the entry-offset asserts (panics) are modelled
by `none`. -/
def array_push (buf : List ℕ) (v : Json) : Option (List ℕ) :=
  let root := read32 buf (buf.length - 4)
  if Entry.tag root ≠ ARRAY_TAG then none
  else
    let len := read32 buf (Entry.offset root - 8)
    let off := buf.length - 4 - 4 - 4 - 4 * len
    let buf1 := buf.take (buf.length - 12)
    let buf2 := buf1.take off ++ encVal v ++ buf1.drop off
    (makeEntry v off).bind fun e =>
      let buf3 := buf2 ++ le32 e
      let buf4 := buf3 ++ le32 (len + 1)
      let buf5 := buf4 ++ le32 (buf4.length + 4)
      (Entry.array buf5.length).bind fun root2 => some (buf5 ++ le32 root2)

/-- `Value::object_insert` from `src/value.rs`: the body is `todo!()`, which
panics unconditionally whatever the arguments; the panic is modelled by
`none`. -/
def object_insert (_buf : List ℕ) (_key : String) (_v : Json) : Option (List ℕ) :=
  none

/-- An owned JSON value: `Value { buffer: Box<[u8]> }` from `src/value.rs`. -/
structure Value where
  buffer : List ℕ

/-- `Value::from_bytes` from `src/value.rs`: wraps the bytes as-is, with no
validation of any format invariant. -/
def Value.from_bytes (bytes : List ℕ) : Value := ⟨bytes⟩

/-- `Value::as_bytes` from `src/value.rs`: the underlying buffer. -/
def Value.as_bytes (v : Value) : List ℕ := v.buffer

mutual
/-- Fuel measure for the parser: parser steps needed by one value. -/
def sizeJ : Json → ℕ
  | .null => 1
  | .bool _ => 1
  | .num _ => 1
  | .str _ => 1
  | .arr xs => 1 + sizeL xs
  | .obj kvs => 1 + sizeKV kvs

/-- Fuel needed by a non-empty tail of array elements. -/
def sizeL : List Json → ℕ
  | [] => 0
  | x :: xs => 1 + sizeJ x + sizeL xs

/-- Fuel needed by a non-empty tail of object members. -/
def sizeKV : List (String × Json) → ℕ
  | [] => 0
  | p :: ps => 1 + sizeJ p.2 + sizeKV ps
end

/-- After a printed number only a delimiter (or end of input) may follow. -/
def numStop : List Char → Prop
  | [] => True
  | c :: _ => isDigitChar c = false ∧ c ≠ '.'

/-- The entry tag a value's root entry carries (§3 entry table). -/
def tagOf : Json → ℕ
  | .null => NULL_TAG
  | .bool b => if b then TRUE_TAG else FALSE_TAG
  | .num _ => NUMBER_TAG
  | .str _ => STRING_TAG
  | .arr _ => ARRAY_TAG
  | .obj _ => OBJECT_TAG

/-- The offset carried by a value's root entry in its canonical buffer:
containers point one past their size word, record scalars at their record
(offset 0 at the root), null/booleans carry 0. -/
def entryOffRoot : Json → ℕ
  | .arr xs => (encVal (.arr xs)).length
  | .obj kvs => (encVal (.obj kvs)).length
  | _ => 0

/-- Modelled from the spec: logical lookup of a key in an object's member
list, as `ObjectRef::get` finds it (§4.3; binary search agrees with linear
lookup on a sorted list). -/
def lookupKV (k : String) : List (String × Json) → Option Json
  | [] => none
  | p :: rest => if p.1 = k then some p.2 else lookupKV k rest

/-- The value of the *last* member with key `k` in insertion order. -/
def lastWins (k : String) (kvs : List (String × Json)) : Option Json :=
  kvs.foldl (fun acc p => if p.1 = k then some p.2 else acc) none

/-- The keys of a member list, in order. -/
def keysOf (kvs : List (String × Json)) : List String := kvs.map Prod.fst

mutual
/-- Every object occurring anywhere inside the value has strictly
ascending, duplicate-free keys (§3 invariants). -/
def objsSorted : Json → Bool
  | .null => true
  | .bool _ => true
  | .num _ => true
  | .str _ => true
  | .arr xs => objsSortedL xs
  | .obj kvs => sortedKeysB kvs && objsSortedKV kvs

/-- `objsSorted` over array elements. -/
def objsSortedL : List Json → Bool
  | [] => true
  | x :: xs => objsSorted x && objsSortedL xs

/-- `objsSorted` over the values of object members. -/
def objsSortedKV : List (String × Json) → Bool
  | [] => true
  | p :: ps => objsSorted p.2 && objsSortedKV ps
end

/-! ## Arithmetic helpers for the entry word -/

theorem lor_mul_pow (t off k : ℕ) (h : off < 2 ^ k) :
    (t * 2 ^ k) ||| off = t * 2 ^ k + off := by
  apply Nat.eq_of_testBit_eq
  intro i
  rw [Nat.mul_comm t (2 ^ k), Nat.testBit_or, Nat.testBit_mul_pow_two_add t h i,
    Nat.testBit_mul_pow_two]
  by_cases hik : i < k
  · simp [hik, show ¬ i ≥ k by omega]
  · have hoff : Nat.testBit off i = false := Nat.testBit_lt_two_pow (by
      calc off < 2 ^ k := h
        _ ≤ 2 ^ i := Nat.pow_le_pow_right (by norm_num) (by omega))
    simp [hik, show i ≥ k by omega, hoff]

theorem entryWord_eq (t off : ℕ) (h : off < 2 ^ 29) :
    entryWord t off = t * 2 ^ 29 + off := by
  rw [entryWord, Nat.shiftLeft_eq]
  exact lor_mul_pow t off 29 h

theorem tag_entryWord (t off : ℕ) (h : off < 2 ^ 29) :
    Entry.tag (entryWord t off) = t := by
  rw [entryWord_eq t off h, Entry.tag, Nat.shiftRight_eq_div_pow]
  rw [Nat.mul_comm t (2 ^ 29), Nat.mul_add_div (by norm_num),
    Nat.div_eq_of_lt h, Nat.add_zero]

theorem offset_entryWord (t off : ℕ) (h : off < 2 ^ 29) :
    Entry.offset (entryWord t off) = off := by
  rw [entryWord_eq t off h, Entry.offset,
    show LEN_MASK = 2 ^ 29 - 1 by rfl, Nat.and_pow_two_sub_one_eq_mod]
  omega

/-! ## C10: from_bytes / as_bytes -/

/-- C10: `Value::from_bytes` succeeds on every byte slice — it is a total
function performing no validation of any format invariant — and `as_bytes`
on the result returns exactly the input bytes. -/
theorem C10_from_bytes_as_bytes :
    ∀ bs : List ℕ, (Value.from_bytes bs).as_bytes = bs := fun _ => rfl

/-! ## C8: entry constructors accept offsets below 2^29, reject at 2^29 -/

/-- C8: each offset-carrying entry constructor (`string`, `number`, `array`,
`object`) and `set_offset` accepts every offset up to and including
`2^29 - 1`, and then `offset()` returns the stored offset unchanged and
`tag()` the constructor's tag; any offset at `2^29` or above fails the
constructor's assertion (a panic, modelled by `none`). -/
theorem C8_entry_offset_bound :
    ∀ off : ℕ,
      (off ≤ 2 ^ 29 - 1 →
        Entry.number off = some (entryWord NUMBER_TAG off) ∧
        Entry.string off = some (entryWord STRING_TAG off) ∧
        Entry.array off = some (entryWord ARRAY_TAG off) ∧
        Entry.object off = some (entryWord OBJECT_TAG off) ∧
        (∀ t : ℕ, Entry.tag (entryWord t off) = t ∧
          Entry.offset (entryWord t off) = off) ∧
        (∀ e : ℕ, Entry.set_offset e off = some (entryWord (Entry.tag e) off) ∧
          Entry.tag (entryWord (Entry.tag e) off) = Entry.tag e ∧
          Entry.offset (entryWord (Entry.tag e) off) = off)) ∧
      (2 ^ 29 ≤ off →
        Entry.number off = none ∧ Entry.string off = none ∧
        Entry.array off = none ∧ Entry.object off = none ∧
        (∀ e : ℕ, Entry.set_offset e off = none)) := by
  intro off
  constructor
  · intro h
    have hlt : off < 2 ^ 29 := by omega
    have hle : off ≤ LEN_MASK := by simp only [LEN_MASK]; omega
    refine ⟨?_, ?_, ?_, ?_, ?_, ?_⟩
    · simp [Entry.number, hle]
    · simp [Entry.string, hle]
    · simp [Entry.array, hle]
    · simp [Entry.object, hle]
    · exact fun t => ⟨tag_entryWord t off hlt, offset_entryWord t off hlt⟩
    · intro e
      refine ⟨by simp [Entry.set_offset, hle], tag_entryWord _ off hlt,
        offset_entryWord _ off hlt⟩
  · intro h
    have hgt : ¬ off ≤ LEN_MASK := by simp only [LEN_MASK]; omega
    refine ⟨by simp [Entry.number, hgt], by simp [Entry.string, hgt],
      by simp [Entry.array, hgt], by simp [Entry.object, hgt],
      fun e => by simp [Entry.set_offset, hgt]⟩

/-- Witness for C8 at the boundary offsets `2^29 - 1` and `2^29`. -/
theorem C8_entry_offset_bound_witness :
    Entry.array (2 ^ 29 - 1) = some (entryWord ARRAY_TAG (2 ^ 29 - 1)) ∧
    Entry.array (2 ^ 29) = none := by
  refine ⟨((C8_entry_offset_bound (2 ^ 29 - 1)).1 (by norm_num)).2.2.1, ?_⟩
  exact ((C8_entry_offset_bound (2 ^ 29)).2 (by norm_num)).2.2.1

/-! ## C7: numeric narrowing of add_i64 / add_u64 -/

theorem length_leBytes (w : ℕ) : ∀ n, (leBytes w n).length = w := by
  induction w with
  | zero => intro n; rfl
  | succ w ih => intro n; simp [leBytes, ih]

theorem leVal_leBytes (w : ℕ) : ∀ n, leVal (leBytes w n) = n % 256 ^ w := by
  induction w with
  | zero => intro n; simp [leBytes, leVal, Nat.mod_one]
  | succ w ih =>
    intro n
    rw [leBytes, leVal, ih, pow_succ, Nat.mul_comm (256 ^ w) 256, Nat.mod_mul]

theorem length_intBytes (w : ℕ) (v : ℤ) : (intBytes w v).length = w :=
  length_leBytes w _

theorem leVal_intBytes (w : ℕ) (v : ℤ) :
    leVal (intBytes w v) = (v % ((2 : ℤ) ^ (8 * w))).toNat % 256 ^ w :=
  leVal_leBytes w _

/-- C7: `add_i64`/`add_u64` encode every integer with the narrowest legal
number kind: zero as kind `0x00` with no payload; any other value with the
narrowest of the i8/i16/i32/i64 kinds; `add_u64` uses the signed kinds for
values in i64's positive range and kind `0x18` exactly for values strictly
above `i64::MAX`.  Decoding the record (kind, payload of `number_size` bytes,
sign-extended) recovers the value exactly. -/
theorem C7_number_narrowing :
    (addI64 0 = [NUMBER_ZERO]) ∧
    (∀ u : ℕ, u ≤ 2 ^ 63 - 1 → addU64 u = addI64 (u : ℤ)) ∧
    (∀ v : ℤ, v ≠ 0 → -(2 : ℤ) ^ 7 ≤ v ∧ v < 2 ^ 7 →
      ∃ p, addI64 v = NUMBER_I8 :: p) ∧
    (∀ v : ℤ, ¬(-(2 : ℤ) ^ 7 ≤ v ∧ v < 2 ^ 7) → -(2 : ℤ) ^ 15 ≤ v ∧ v < 2 ^ 15 →
      ∃ p, addI64 v = NUMBER_I16 :: p) ∧
    (∀ v : ℤ, ¬(-(2 : ℤ) ^ 15 ≤ v ∧ v < 2 ^ 15) → -(2 : ℤ) ^ 31 ≤ v ∧ v < 2 ^ 31 →
      ∃ p, addI64 v = NUMBER_I32 :: p) ∧
    (∀ v : ℤ, ¬(-(2 : ℤ) ^ 31 ≤ v ∧ v < 2 ^ 31) → ∃ p, addI64 v = NUMBER_I64 :: p) ∧
    (∀ u : ℕ, 2 ^ 63 - 1 < u → ∃ p, addU64 u = NUMBER_U64 :: p) ∧
    (∀ v : ℤ, -(2 : ℤ) ^ 63 ≤ v → v < 2 ^ 63 → decodeNum (addI64 v) = some (.int v)) ∧
    (∀ u : ℕ, u < 2 ^ 64 → decodeNum (addU64 u) = some (.int (u : ℤ))) := by
  have hz : addI64 0 = [NUMBER_ZERO] := by simp [addI64]
  have hI8 : ∀ v : ℤ, -(2 : ℤ) ^ 7 ≤ v → v < 2 ^ 7 →
      decodeNum (NUMBER_I8 :: intBytes 1 v) = some (.int v) := by
    intro v h1 h2
    rw [decodeNum]
    have hw : number_size NUMBER_I8 = 1 := rfl
    simp only [length_intBytes, leVal_intBytes, hw]
    norm_num [NUMBER_ZERO, NUMBER_I8, NUMBER_I16, NUMBER_I32, NUMBER_I64, NUMBER_U64]
    split_ifs <;> omega
  have hI16 : ∀ v : ℤ, -(2 : ℤ) ^ 15 ≤ v → v < 2 ^ 15 →
      decodeNum (NUMBER_I16 :: intBytes 2 v) = some (.int v) := by
    intro v h1 h2
    rw [decodeNum]
    have hw : number_size NUMBER_I16 = 2 := rfl
    simp only [length_intBytes, leVal_intBytes, hw]
    norm_num [NUMBER_ZERO, NUMBER_I8, NUMBER_I16, NUMBER_I32, NUMBER_I64, NUMBER_U64]
    split_ifs <;> omega
  have hI32 : ∀ v : ℤ, -(2 : ℤ) ^ 31 ≤ v → v < 2 ^ 31 →
      decodeNum (NUMBER_I32 :: intBytes 4 v) = some (.int v) := by
    intro v h1 h2
    rw [decodeNum]
    have hw : number_size NUMBER_I32 = 4 := rfl
    simp only [length_intBytes, leVal_intBytes, hw]
    norm_num [NUMBER_ZERO, NUMBER_I8, NUMBER_I16, NUMBER_I32, NUMBER_I64, NUMBER_U64]
    split_ifs <;> omega
  have hI64 : ∀ v : ℤ, -(2 : ℤ) ^ 63 ≤ v → v < 2 ^ 63 →
      decodeNum (NUMBER_I64 :: intBytes 8 v) = some (.int v) := by
    intro v h1 h2
    rw [decodeNum]
    have hw : number_size NUMBER_I64 = 8 := rfl
    simp only [length_intBytes, leVal_intBytes, hw]
    norm_num [NUMBER_ZERO, NUMBER_I8, NUMBER_I16, NUMBER_I32, NUMBER_I64, NUMBER_U64]
    split_ifs <;> omega
  have hdec : ∀ v : ℤ, -(2 : ℤ) ^ 63 ≤ v → v < 2 ^ 63 →
      decodeNum (addI64 v) = some (.int v) := by
    intro v h1 h2
    by_cases h0 : v = 0
    · subst h0
      rw [hz, decodeNum]
      have hw : number_size NUMBER_ZERO = 0 := rfl
      simp only [hw]
      norm_num [NUMBER_ZERO]
    · rw [addI64]
      simp only [h0, if_false]
      by_cases hb1 : -(2 : ℤ) ^ 7 ≤ v ∧ v < 2 ^ 7
      · simp only [hb1, and_self, if_true]
        exact hI8 v hb1.1 hb1.2
      · simp only [hb1, if_false]
        by_cases hb2 : -(2 : ℤ) ^ 15 ≤ v ∧ v < 2 ^ 15
        · simp only [hb2, and_self, if_true]
          exact hI16 v hb2.1 hb2.2
        · simp only [hb2, if_false]
          by_cases hb3 : -(2 : ℤ) ^ 31 ≤ v ∧ v < 2 ^ 31
          · simp only [hb3, and_self, if_true]
            exact hI32 v hb3.1 hb3.2
          · simp only [hb3, if_false]
            exact hI64 v h1 h2
  refine ⟨hz, ?_, ?_, ?_, ?_, ?_, ?_, hdec, ?_⟩
  · intro u hu
    rw [addU64]
    simp only [hu, if_true]
  · intro v h0 hb
    rw [addI64]
    simp only [h0, if_false, hb, and_self, if_true]
    exact ⟨_, rfl⟩
  · intro v hb1 hb2
    rw [addI64]
    have h0 : ¬ v = 0 := by omega
    simp only [h0, if_false, hb1, hb2, and_self, if_true]
    exact ⟨_, rfl⟩
  · intro v hb2 hb3
    rw [addI64]
    have h0 : ¬ v = 0 := by omega
    have hb1 : ¬(-(2 : ℤ) ^ 7 ≤ v ∧ v < 2 ^ 7) := by omega
    simp only [h0, if_false, hb1, hb2, hb3, and_self, if_true]
    exact ⟨_, rfl⟩
  · intro v hb3
    rw [addI64]
    have h0 : ¬ v = 0 := by omega
    have hb1 : ¬(-(2 : ℤ) ^ 7 ≤ v ∧ v < 2 ^ 7) := by omega
    have hb2 : ¬(-(2 : ℤ) ^ 15 ≤ v ∧ v < 2 ^ 15) := by omega
    simp only [h0, if_false, hb1, hb2, hb3, if_false]
    exact ⟨_, rfl⟩
  · intro u hu
    rw [addU64]
    simp only [show ¬ u ≤ 2 ^ 63 - 1 by omega, if_false]
    exact ⟨_, rfl⟩
  · intro u hu
    by_cases hs : u ≤ 2 ^ 63 - 1
    · rw [addU64]
      simp only [hs, if_true]
      exact hdec u (by omega) (by omega)
    · rw [addU64]
      simp only [hs, if_false]
      rw [decodeNum]
      have hw : number_size NUMBER_U64 = 8 := rfl
      simp only [length_leBytes, leVal_leBytes, hw]
      norm_num [NUMBER_ZERO, NUMBER_I8, NUMBER_I16, NUMBER_I32, NUMBER_I64,
        NUMBER_U64]
      omega

/-- Witness for C7 at concrete inputs on both sides of each boundary. -/
theorem C7_number_narrowing_witness :
    addU64 300 = addI64 (300 : ℤ) ∧
    (∃ p, addI64 (-129) = NUMBER_I16 :: p) ∧
    decodeNum (addI64 (-300)) = some (.int (-300)) ∧
    decodeNum (addU64 (2 ^ 64 - 1)) = some (.int ((2 ^ 64 - 1 : ℕ) : ℤ)) := by
  refine ⟨C7_number_narrowing.2.1 300 (by norm_num), ?_, ?_, ?_⟩
  · exact C7_number_narrowing.2.2.2.1 (-129) (by norm_num) (by norm_num)
  · exact C7_number_narrowing.2.2.2.2.2.2.2.1 (-300) (by norm_num) (by norm_num)
  · exact C7_number_narrowing.2.2.2.2.2.2.2.2 (2 ^ 64 - 1) (by norm_num)

/-! ## Buffer-layout lemmas for array_push -/

theorem length_le32 (n : ℕ) : (le32 n).length = 4 := length_leBytes 4 n

theorem leVal_le32 (n : ℕ) : leVal (le32 n) = n % 2 ^ 32 := by
  rw [le32, leVal_leBytes]; norm_num

theorem read32_at (pre post : List ℕ) (v : ℕ) :
    read32 (pre ++ (le32 v ++ post)) pre.length = v % 2 ^ 32 := by
  rw [read32, List.drop_left]
  rw [show (le32 v ++ post).take 4 = le32 v by
    rw [← length_le32 v]; exact List.take_left _ _]
  exact leVal_le32 v

theorem encItems_snd_length (xs : List Json) :
    ∀ off, (encItems xs off).2.length = 4 * xs.length := by
  induction xs with
  | nil => intro off; rfl
  | cons x xs ih =>
    intro off
    rw [encItems]
    simp only [List.length_append, List.length_cons, ih, length_le32]
    ring

theorem encItems_fst_indep (xs : List Json) :
    ∀ off off2, (encItems xs off).1 = (encItems xs off2).1 := by
  induction xs with
  | nil => intro _ _; rfl
  | cons x xs ih =>
    intro off off2
    rw [encItems, encItems]
    simp only [ih (off + (encVal x).length) (off2 + (encVal x).length)]

theorem encItems_append (xs : List Json) (y : Json) :
    ∀ off, encItems (xs ++ [y]) off =
      ((encItems xs off).1 ++ encVal y,
       (encItems xs off).2 ++
         le32 (entryForLen y (off + (encItems xs off).1.length) (encVal y).length)) := by
  induction xs with
  | nil =>
    intro off
    simp [encItems]
  | cons x xs ih =>
    intro off
    rw [List.cons_append, encItems, ih (off + (encVal x).length), encItems]
    simp only [List.append_assoc, List.length_append, Prod.mk.injEq, Nat.add_assoc]

theorem makeEntry_eq (v : Json) (off : ℕ)
    (h : off + (encVal v).length ≤ LEN_MASK) :
    makeEntry v off = some (entryForLen v off (encVal v).length) := by
  cases v with
  | null => rfl
  | bool b => cases b <;> rfl
  | num n =>
    rw [makeEntry, Entry.number, if_pos (by omega)]
    rfl
  | str s =>
    rw [makeEntry, Entry.string, if_pos (by omega)]
    rfl
  | arr xs =>
    rw [makeEntry, Entry.array, if_pos (by omega)]
    rfl
  | obj kvs =>
    rw [makeEntry, Entry.object, if_pos (by omega)]
    rfl

theorem tagOf_le (j : Json) : tagOf j ≤ 6 := by
  cases j with
  | bool b => cases b <;> norm_num [tagOf, TRUE_TAG, FALSE_TAG]
  | null => norm_num [tagOf, NULL_TAG]
  | num n => norm_num [tagOf, NUMBER_TAG]
  | str s => norm_num [tagOf, STRING_TAG]
  | arr xs => norm_num [tagOf, ARRAY_TAG]
  | obj kvs => norm_num [tagOf, OBJECT_TAG]

theorem entryOffRoot_le (j : Json) : entryOffRoot j ≤ (encVal j).length := by
  cases j <;> simp [entryOffRoot]

theorem entryFor_word (j : Json) :
    entryFor j 0 = entryWord (tagOf j) (entryOffRoot j) := by
  cases j with
  | bool b => cases b <;> rfl
  | null => rfl
  | num n => rfl
  | str s => rfl
  | arr xs => simp [entryFor, entryForLen, tagOf, entryOffRoot]
  | obj kvs => simp [entryFor, entryForLen, tagOf, entryOffRoot]

theorem read32_root (j : Json) (h : (encVal j).length ≤ LEN_MASK) :
    read32 (encRoot j) ((encRoot j).length - 4) =
      entryWord (tagOf j) (entryOffRoot j) := by
  have hbound : (encVal j).length < 2 ^ 29 := by
    simp only [LEN_MASK] at h; omega
  have hofflt : entryOffRoot j < 2 ^ 29 := by
    have := entryOffRoot_le j
    omega
  rw [encRoot, List.length_append, length_le32]
  rw [show (encVal j).length + 4 - 4 = (encVal j).length by omega]
  rw [show encVal j ++ le32 (entryFor j 0) =
      encVal j ++ (le32 (entryFor j 0) ++ []) by simp]
  rw [read32_at, entryFor_word j]
  apply Nat.mod_eq_of_lt
  rw [entryWord_eq _ _ hofflt]
  have := tagOf_le j
  omega

/-! ## C2: object_insert is unimplemented (todo!()) -/

/-- C2: evaluating `object_insert` at the failing input of its own rustdoc
example — the object `{"a":1}`, key `"b"`, value `2` — the call does not
produce any buffer: the source body is `todo!()`, which panics (modelled
`none`), instead of inserting the binding. -/
theorem C2_object_insert_todo :
    object_insert (encRoot (Json.obj [("a", Json.num (.int 1))])) "b"
      (Json.num (.int 2)) = none := rfl

/-! ## C9: the mutators panic, they do not return recoverable errors -/

/-- C9 counterexample: at the concrete input `1` (root is a number, not an
array) `array_push` aborts — modelled `none`, the image of the source's
`expect("not array")` panic — and `object_insert` on a well-formed object
aborts likewise (`todo!()`); no error value is ever returned to the caller,
refuting “returned to the caller as a recoverable error rather than
aborting”. -/
theorem C9_mutators_counterexample :
    array_push (encRoot (Json.num (.int 1))) Json.null = none ∧
    object_insert (encRoot (Json.obj [])) "a" (Json.num (.int 1)) = none := by
  constructor <;> rfl

/-- C9 (amended): `array_push` applied to a valid value whose root is not an
array panics (fatal, modelled `none`), and `object_insert` panics
unconditionally (its body is `todo!()`); neither returns a recoverable
error. -/
theorem C9_mutators_panic :
    (∀ j v : Json, (encVal j).length ≤ LEN_MASK → (∀ xs, j ≠ Json.arr xs) →
      array_push (encRoot j) v = none) ∧
    (∀ (buf : List ℕ) (k : String) (v : Json), object_insert buf k v = none) := by
  constructor
  · intro j v hlen hnotarr
    have hbound : (encVal j).length < 2 ^ 29 := by
      simp only [LEN_MASK] at hlen; omega
    have hofflt : entryOffRoot j < 2 ^ 29 := by
      have := entryOffRoot_le j
      omega
    rw [array_push, read32_root j hlen]
    have htag : Entry.tag (entryWord (tagOf j) (entryOffRoot j)) ≠ ARRAY_TAG := by
      rw [tag_entryWord _ _ hofflt]
      cases j with
      | null => norm_num [tagOf, NULL_TAG, ARRAY_TAG]
      | bool b => cases b <;> norm_num [tagOf, TRUE_TAG, FALSE_TAG, ARRAY_TAG]
      | num n => norm_num [tagOf, NUMBER_TAG, ARRAY_TAG]
      | str s => norm_num [tagOf, STRING_TAG, ARRAY_TAG]
      | arr xs => exact absurd rfl (hnotarr xs)
      | obj kvs => norm_num [tagOf, OBJECT_TAG, ARRAY_TAG]
    simp only [htag, ne_eq, not_false_eq_true, if_true]
  · intro _ _ _
    rfl

/-- Witness for C9's amended theorem at the root value `1`. -/
theorem C9_mutators_panic_witness :
    array_push (encRoot (Json.num (.int 1))) Json.null = none :=
  C9_mutators_panic.1 (Json.num (.int 1)) Json.null (by decide)
    (fun xs h => by cases h)

/-! ## C3: array_push appends the value -/

theorem array_push_canon (js : List Json) (v : Json)
    (h : (encVal (Json.arr (js ++ [v]))).length ≤ LEN_MASK) :
    array_push (encRoot (Json.arr js)) v = some (encRoot (Json.arr (js ++ [v]))) := by
  have hE : (encItems js 0).2.length = 4 * js.length := encItems_snd_length js 0
  have henc1 : encVal (Json.arr js) = (encItems js 0).1 ++ (encItems js 0).2 ++
      le32 js.length ++
      le32 ((encItems js 0).1.length + (encItems js 0).2.length + 8) := rfl
  have happ := encItems_append js v 0
  rw [Nat.zero_add] at happ
  have henc2 : encVal (Json.arr (js ++ [v])) =
      ((encItems js 0).1 ++ encVal v) ++
      ((encItems js 0).2 ++
        le32 (entryForLen v (encItems js 0).1.length (encVal v).length)) ++
      le32 (js ++ [v]).length ++
      le32 (((encItems js 0).1 ++ encVal v).length +
        ((encItems js 0).2 ++
          le32 (entryForLen v (encItems js 0).1.length (encVal v).length)).length + 8) := by
    rw [show encVal (Json.arr (js ++ [v])) = (encItems (js ++ [v]) 0).1 ++
        (encItems (js ++ [v]) 0).2 ++ le32 (js ++ [v]).length ++
        le32 ((encItems (js ++ [v]) 0).1.length + (encItems (js ++ [v]) 0).2.length + 8)
      from rfl, happ]
  have hsz1 : (encVal (Json.arr js)).length =
      (encItems js 0).1.length + 4 * js.length + 8 := by
    rw [henc1]
    simp [length_le32, hE]
    omega
  have hsz2 : (encVal (Json.arr (js ++ [v]))).length =
      (encItems js 0).1.length + (encVal v).length + 4 * js.length + 12 := by
    rw [henc2]
    simp [length_le32, hE]
    omega
  have hMask : (encItems js 0).1.length + (encVal v).length + 4 * js.length + 12 ≤
      LEN_MASK := by rw [← hsz2]; exact h
  have hszlt : (encVal (Json.arr js)).length < 2 ^ 29 := by
    simp only [LEN_MASK] at hMask
    omega
  have hoffroot : entryOffRoot (Json.arr js) = (encVal (Json.arr js)).length := rfl
  rw [array_push, read32_root (Json.arr js) (by simp only [LEN_MASK] at hMask ⊢; omega)]
  rw [if_neg (by
    rw [tag_entryWord _ _ (by rw [hoffroot]; exact hszlt)]
    simp [tagOf])]
  rw [show tagOf (Json.arr js) = ARRAY_TAG from rfl, hoffroot,
    offset_entryWord _ _ hszlt]
  -- the count read
  have hshape : encRoot (Json.arr js) =
      ((encItems js 0).1 ++ (encItems js 0).2) ++
      (le32 js.length ++
        (le32 ((encItems js 0).1.length + (encItems js 0).2.length + 8) ++
          le32 (entryFor (Json.arr js) 0))) := by
    rw [encRoot, henc1]
    simp [List.append_assoc]
  have hcount : read32 (encRoot (Json.arr js))
      ((encVal (Json.arr js)).length - 8) = js.length := by
    rw [show (encVal (Json.arr js)).length - 8 =
        ((encItems js 0).1 ++ (encItems js 0).2).length by
      simp only [List.length_append, hE, hsz1]; omega]
    rw [hshape, read32_at]
    apply Nat.mod_eq_of_lt
    simp only [LEN_MASK] at hMask
    omega
  rw [hcount]
  simp only []
  -- the splice offset
  have hlenroot : (encRoot (Json.arr js)).length = (encVal (Json.arr js)).length + 4 := by
    rw [encRoot]
    simp [length_le32]
  have hoffeq : (encRoot (Json.arr js)).length - 4 - 4 - 4 - 4 * js.length =
      (encItems js 0).1.length := by
    rw [hlenroot, hsz1]
    omega
  rw [hoffeq]
  -- truncation
  have htrunc : (encRoot (Json.arr js)).take ((encRoot (Json.arr js)).length - 12) =
      (encItems js 0).1 ++ (encItems js 0).2 := by
    rw [show (encRoot (Json.arr js)).length - 12 =
        ((encItems js 0).1 ++ (encItems js 0).2).length by
      rw [hlenroot, hsz1]
      simp only [List.length_append, hE]
      omega]
    rw [hshape]
    exact List.take_left _ _
  rw [htrunc]
  -- splice
  rw [show ((encItems js 0).1 ++ (encItems js 0).2).take (encItems js 0).1.length =
      (encItems js 0).1 from List.take_left _ _,
    show ((encItems js 0).1 ++ (encItems js 0).2).drop (encItems js 0).1.length =
      (encItems js 0).2 from List.drop_left _ _]
  -- the new entry
  rw [makeEntry_eq v (encItems js 0).1.length (by simp only [LEN_MASK] at hMask ⊢; omega),
    Option.some_bind]
  -- final root entry
  have hlen5 : ((encItems js 0).1 ++ encVal v ++ (encItems js 0).2 ++
      le32 (entryForLen v (encItems js 0).1.length (encVal v).length) ++
      le32 (js.length + 1)).length + 4 =
      (encItems js 0).1.length + (encVal v).length + 4 * js.length + 12 := by
    simp [length_le32, hE]
    omega
  rw [show ((encItems js 0).1 ++ encVal v ++ (encItems js 0).2 ++
      le32 (entryForLen v (encItems js 0).1.length (encVal v).length) ++
      le32 (js.length + 1) ++
      le32 (((encItems js 0).1 ++ encVal v ++ (encItems js 0).2 ++
        le32 (entryForLen v (encItems js 0).1.length (encVal v).length) ++
        le32 (js.length + 1)).length + 4)).length =
      (encItems js 0).1.length + (encVal v).length + 4 * js.length + 12 by
    simp only [List.length_append, length_le32, hE]
    try omega]
  rw [show Entry.array ((encItems js 0).1.length + (encVal v).length +
      4 * js.length + 12) =
      some (entryWord ARRAY_TAG ((encItems js 0).1.length + (encVal v).length +
        4 * js.length + 12)) by
    rw [Entry.array, if_pos (by omega)], Option.some_bind]
  -- assemble
  rw [encRoot, henc2]
  rw [show entryFor (Json.arr (js ++ [v])) 0 =
      entryWord ARRAY_TAG (0 + (encVal (Json.arr (js ++ [v]))).length) from rfl]
  rw [Nat.zero_add, hsz2]
  simp only [List.append_assoc, List.length_append, length_le32, hE,
    List.length_singleton]
  ring_nf

/-- C3: on a canonical buffer whose root is an array of the elements `js`,
`array_push v` produces exactly the canonical buffer of the array
`js ++ [v]`: afterwards the root is an array of length `n + 1`, element `i`
for every `i < n` is unchanged, and element `n` is the pushed value.
(The size hypothesis is the 29-bit offset limit asserted by the entry
constructors the source calls.) -/
theorem C3_array_push_appends :
    ∀ (js : List Json) (v : Json),
      (encVal (Json.arr (js ++ [v]))).length ≤ LEN_MASK →
      array_push (encRoot (Json.arr js)) v = some (encRoot (Json.arr (js ++ [v]))) ∧
      (js ++ [v]).length = js.length + 1 ∧
      (∀ i, i < js.length → (js ++ [v])[i]? = js[i]?) ∧
      (js ++ [v])[js.length]? = some v := by
  intro js v h
  refine ⟨array_push_canon js v h, by simp, ?_, ?_⟩
  · intro i hi
    rw [List.getElem?_append, if_pos hi]
  · rw [List.getElem?_append_right (le_refl _)]
    simp

/-- Witness for C3: the spec's end-to-end scenario.  Starting from
`parse("[1]")` and pushing `null`, `2`, `"s"` yields, step by step, the
canonical buffers of the intermediate arrays; the final value prints as
`[1,null,2,"s"]` and has length 4. -/
theorem C3_array_push_appends_witness :
    parseJson "[1]" = some (Json.arr [Json.num (.int 1)]) ∧
    array_push (encRoot (Json.arr [Json.num (.int 1)])) Json.null =
      some (encRoot (Json.arr [Json.num (.int 1), Json.null])) ∧
    array_push (encRoot (Json.arr [Json.num (.int 1), Json.null]))
        (Json.num (.int 2)) =
      some (encRoot (Json.arr [Json.num (.int 1), Json.null, Json.num (.int 2)])) ∧
    array_push (encRoot (Json.arr [Json.num (.int 1), Json.null, Json.num (.int 2)]))
        (Json.str "s") =
      some (encRoot (Json.arr
        [Json.num (.int 1), Json.null, Json.num (.int 2), Json.str "s"])) ∧
    printJson (Json.arr
      [Json.num (.int 1), Json.null, Json.num (.int 2), Json.str "s"]) =
      "[1,null,2,\"s\"]" ∧
    [Json.num (.int 1), Json.null, Json.num (.int 2), Json.str "s"].length = 4 := by
  refine ⟨by rfl, ?_, ?_, ?_, by rfl, by rfl⟩
  · exact (C3_array_push_appends [Json.num (.int 1)] Json.null (by decide)).1
  · exact (C3_array_push_appends [Json.num (.int 1), Json.null]
      (Json.num (.int 2)) (by decide)).1
  · exact (C3_array_push_appends [Json.num (.int 1), Json.null, Json.num (.int 2)]
      (Json.str "s") (by decide)).1

/-! ## C4: the comparison is a total order -/

theorem cmp3_swap {α : Type} [LinearOrder α] (a b : α) :
    (cmp3 a b).swap = cmp3 b a := by
  rw [cmp3, cmp3]
  rcases lt_trichotomy a b with h | h | h
  · rw [if_pos h, if_neg (lt_asymm h), if_neg (ne_of_lt h).symm]
    rfl
  · subst h
    rw [if_neg (lt_irrefl a), if_pos rfl]
    rfl
  · rw [if_neg (lt_asymm h), if_neg (ne_of_gt h), if_pos h]
    rfl

theorem cmp3_eq_iff {α : Type} [LinearOrder α] (a b : α) :
    cmp3 a b = .eq ↔ a = b := by
  rw [cmp3]
  split_ifs with h1 h2
  · simp only [reduceCtorEq, false_iff]
    exact ne_of_lt h1
  · simpa using h2
  · simp only [reduceCtorEq, false_iff]
    exact h2

theorem cmp3_lt_iff {α : Type} [LinearOrder α] (a b : α) :
    cmp3 a b = .lt ↔ a < b := by
  rw [cmp3]
  split_ifs with h1 h2
  · simpa using h1
  · simp only [reduceCtorEq, false_iff]
    subst h2
    exact lt_irrefl a
  · simp only [reduceCtorEq, false_iff]
    exact fun hc => h1 hc

theorem cmp3_trans {α : Type} [LinearOrder α] {a b c : α}
    (h1 : cmp3 a b = .lt) (h2 : cmp3 b c = .lt) : cmp3 a c = .lt := by
  rw [cmp3_lt_iff] at h1 h2 ⊢
  exact lt_trans h1 h2

theorem charNat_inj {a b : Char} (h : charNat a = charNat b) : a = b := by
  rw [charNat, charNat] at h
  exact Char.eq_of_val_eq (UInt32.ext h)

theorem strCmpGo_swap (as : List Char) :
    ∀ bs, (strCmp.go as bs).swap = strCmp.go bs as := by
  induction as with
  | nil => intro bs; cases bs <;> rfl
  | cons a as ih =>
    intro bs
    cases bs with
    | nil => rfl
    | cons b bs =>
      rw [strCmp.go, strCmp.go, Ordering.swap_then, cmp3_swap, ih bs]

theorem strCmpGo_eq (as : List Char) :
    ∀ bs, strCmp.go as bs = .eq → as = bs := by
  induction as with
  | nil =>
    intro bs h
    cases bs with
    | nil => rfl
    | cons b bs => exact absurd h (by rw [strCmp.go]; simp)
  | cons a as ih =>
    intro bs h
    cases bs with
    | nil => exact absurd h (by rw [strCmp.go]; simp)
    | cons b bs =>
      rw [strCmp.go, Ordering.then_eq_eq] at h
      rw [charNat_inj ((cmp3_eq_iff _ _).1 h.1), ih bs h.2]

theorem strCmpGo_trans (as : List Char) :
    ∀ bs cs, strCmp.go as bs = .lt → strCmp.go bs cs = .lt →
      strCmp.go as cs = .lt := by
  induction as with
  | nil =>
    intro bs cs h1 h2
    cases bs with
    | nil => exact absurd h1 (by rw [strCmp.go]; simp)
    | cons b bs =>
      cases cs with
      | nil => exact absurd h2 (by rw [strCmp.go]; simp)
      | cons c cs => rfl
  | cons a as ih =>
    intro bs cs h1 h2
    cases bs with
    | nil => exact absurd h1 (by rw [strCmp.go]; simp)
    | cons b bs =>
      cases cs with
      | nil => exact absurd h2 (by rw [strCmp.go]; simp)
      | cons c cs =>
        rw [strCmp.go, Ordering.then_eq_lt] at h1 h2 ⊢
        rcases h1 with h1 | ⟨h1e, h1r⟩
        · rcases h2 with h2 | ⟨h2e, h2r⟩
          · exact Or.inl (cmp3_trans h1 h2)
          · rw [charNat_inj ((cmp3_eq_iff _ _).1 h2e)] at h1
            exact Or.inl h1
        · rcases h2 with h2 | ⟨h2e, h2r⟩
          · rw [← charNat_inj ((cmp3_eq_iff _ _).1 h1e)] at h2
            exact Or.inl h2
          · rw [charNat_inj ((cmp3_eq_iff _ _).1 h1e),
              charNat_inj ((cmp3_eq_iff _ _).1 h2e)]
            exact Or.inr ⟨(cmp3_eq_iff _ _).2 rfl, ih bs cs h1r h2r⟩

theorem strCmp_swap (a b : String) : (strCmp a b).swap = strCmp b a :=
  strCmpGo_swap a.data b.data

theorem strCmp_eq {a b : String} (h : strCmp a b = .eq) : a = b := by
  cases a
  cases b
  exact congrArg String.mk (strCmpGo_eq _ _ h)

theorem strCmp_trans {a b c : String} (h1 : strCmp a b = .lt)
    (h2 : strCmp b c = .lt) : strCmp a c = .lt :=
  strCmpGo_trans a.data b.data c.data h1 h2

theorem strCmp_refl (a : String) : strCmp a a = .eq := by
  have h := strCmp_swap a a
  cases he : strCmp a a with
  | lt => rw [he] at h; exact absurd h (by decide)
  | eq => rfl
  | gt => rw [he] at h; exact absurd h (by decide)

theorem eq_null_of_rank {b : Json} (h : b.rank = 0) : b = .null := by
  cases b <;> first | rfl | (simp [Json.rank] at h)

theorem eq_str_of_rank {b : Json} (h : b.rank = 1) : ∃ s, b = .str s := by
  cases b <;> first | exact ⟨_, rfl⟩ | (simp [Json.rank] at h)

theorem eq_num_of_rank {b : Json} (h : b.rank = 2) : ∃ n, b = .num n := by
  cases b <;> first | exact ⟨_, rfl⟩ | (simp [Json.rank] at h)

theorem eq_bool_of_rank {b : Json} (h : b.rank = 3) : ∃ v, b = .bool v := by
  cases b <;> first | exact ⟨_, rfl⟩ | (simp [Json.rank] at h)

theorem eq_arr_of_rank {b : Json} (h : b.rank = 4) : ∃ xs, b = .arr xs := by
  cases b <;> first | exact ⟨_, rfl⟩ | (simp [Json.rank] at h)

theorem eq_obj_of_rank {b : Json} (h : b.rank = 5) : ∃ kvs, b = .obj kvs := by
  cases b <;> first | exact ⟨_, rfl⟩ | (simp [Json.rank] at h)

theorem jcmp_mixed (a b : Json) (h : a.rank ≠ b.rank) :
    jcmp a b = cmp3 a.rank b.rank := by
  cases a <;> cases b <;> first | rfl | exact absurd rfl h

theorem jcmpL_swap : ∀ (as bs : List Json),
    (∀ a ∈ as, ∀ b ∈ bs, (jcmp a b).swap = jcmp b a) →
    (jcmpL as bs).swap = jcmpL bs as := by
  intro as
  induction as with
  | nil => intro bs _; cases bs <;> rfl
  | cons a as ih =>
    intro bs hp
    cases bs with
    | nil => rfl
    | cons b bs =>
      rw [jcmpL, jcmpL, Ordering.swap_then, hp a (by simp) b (by simp),
        ih bs (fun a2 ha b2 hb => hp a2 (by simp [ha]) b2 (by simp [hb]))]

theorem jcmpL_congr : ∀ (as bs xs : List Json),
    (∀ a ∈ as, ∀ b ∈ bs, ∀ x ∈ xs, jcmp a b = .eq → jcmp a x = jcmp b x) →
    jcmpL as bs = .eq → jcmpL as xs = jcmpL bs xs := by
  intro as
  induction as with
  | nil =>
    intro bs xs _ he
    cases bs with
    | nil => rfl
    | cons b bs => rw [jcmpL] at he; exact absurd he (by decide)
  | cons a as ih =>
    intro bs xs hp he
    cases bs with
    | nil => rw [jcmpL] at he; exact absurd he (by decide)
    | cons b bs =>
      rw [jcmpL, Ordering.then_eq_eq] at he
      cases xs with
      | nil => rfl
      | cons x xs =>
        rw [jcmpL, jcmpL, hp a (by simp) b (by simp) x (by simp) he.1,
          ih bs xs (fun a2 ha b2 hb x2 hx hab =>
            hp a2 (by simp [ha]) b2 (by simp [hb]) x2 (by simp [hx]) hab) he.2]

theorem jcmpL_trans : ∀ (as bs xs : List Json),
    (∀ a ∈ as, ∀ b ∈ bs, ∀ x ∈ xs,
      ((jcmp a b).swap = jcmp b a) ∧ ((jcmp a x).swap = jcmp x a) ∧
      (jcmp a b = .eq → jcmp a x = jcmp b x) ∧
      (jcmp b x = .eq → jcmp b a = jcmp x a) ∧
      (jcmp a b = .lt → jcmp b x = .lt → jcmp a x = .lt)) →
    jcmpL as bs = .lt → jcmpL bs xs = .lt → jcmpL as xs = .lt := by
  intro as
  induction as with
  | nil =>
    intro bs xs _ h1 h2
    cases bs with
    | nil => exact absurd h1 (by decide)
    | cons b bs =>
      cases xs with
      | nil => exact absurd h2 (by simp [jcmpL])
      | cons x xs => rfl
  | cons a as ih =>
    intro bs xs hp h1 h2
    cases bs with
    | nil => exact absurd h1 (by simp [jcmpL])
    | cons b bs =>
      cases xs with
      | nil => exact absurd h2 (by simp [jcmpL])
      | cons x xs =>
        obtain ⟨hsab, hsax, hcl, hcr, htr⟩ := hp a (by simp) b (by simp) x (by simp)
        have ihtail := ih bs xs (fun a2 ha b2 hb x2 hx =>
          hp a2 (by simp [ha]) b2 (by simp [hb]) x2 (by simp [hx]))
        rw [jcmpL, Ordering.then_eq_lt] at h1 h2 ⊢
        rcases h1 with h1 | ⟨h1e, h1r⟩
        · rcases h2 with h2 | ⟨h2e, h2r⟩
          · exact Or.inl (htr h1 h2)
          · refine Or.inl ?_
            have hba : jcmp b a = jcmp x a := hcr h2e
            have : jcmp a x = (jcmp x a).swap := by
              rw [← hsax, Ordering.swap_swap]
            rw [this, ← hba, ← hsab, Ordering.swap_swap]
            exact h1
        · rcases h2 with h2 | ⟨h2e, h2r⟩
          · exact Or.inl ((hcl h1e) ▸ h2)
          · exact Or.inr ⟨(hcl h1e).symm ▸ h2e, ihtail h1r h2r⟩

theorem jcmpKV_swap : ∀ (as bs : List (String × Json)),
    (∀ p ∈ as, ∀ q ∈ bs, (jcmp p.2 q.2).swap = jcmp q.2 p.2) →
    (jcmpKV as bs).swap = jcmpKV bs as := by
  intro as
  induction as with
  | nil => intro bs _; cases bs <;> rfl
  | cons p as ih =>
    intro bs hp
    cases bs with
    | nil => rfl
    | cons q bs =>
      obtain ⟨k, v⟩ := p
      obtain ⟨k2, v2⟩ := q
      rw [jcmpKV, jcmpKV, Ordering.swap_then, Ordering.swap_then, strCmp_swap,
        hp (k, v) (by simp) (k2, v2) (by simp),
        ih bs (fun p2 hp2 q2 hq2 => hp p2 (by simp [hp2]) q2 (by simp [hq2]))]

theorem jcmpKV_congr : ∀ (as bs xs : List (String × Json)),
    (∀ p ∈ as, ∀ q ∈ bs, ∀ r ∈ xs, jcmp p.2 q.2 = .eq → jcmp p.2 r.2 = jcmp q.2 r.2) →
    jcmpKV as bs = .eq → jcmpKV as xs = jcmpKV bs xs := by
  intro as
  induction as with
  | nil =>
    intro bs xs _ he
    cases bs with
    | nil => rfl
    | cons q bs => rw [jcmpKV] at he; exact absurd he (by decide)
  | cons p as ih =>
    intro bs xs hp he
    cases bs with
    | nil => rw [jcmpKV] at he; exact absurd he (by decide)
    | cons q bs =>
      obtain ⟨k, v⟩ := p
      obtain ⟨k2, v2⟩ := q
      rw [jcmpKV, Ordering.then_eq_eq, Ordering.then_eq_eq] at he
      obtain ⟨hk, hv, hr⟩ := he
      cases xs with
      | nil => rfl
      | cons r xs =>
        obtain ⟨k3, v3⟩ := r
        rw [jcmpKV, jcmpKV, strCmp_eq hk,
          hp (k, v) (by simp) (k2, v2) (by simp) (k3, v3) (by simp) hv,
          ih bs xs (fun p2 hp2 q2 hq2 r2 hr2 hpq =>
            hp p2 (by simp [hp2]) q2 (by simp [hq2]) r2 (by simp [hr2]) hpq) hr]

theorem jcmpKV_trans : ∀ (as bs xs : List (String × Json)),
    (∀ p ∈ as, ∀ q ∈ bs, ∀ r ∈ xs,
      ((jcmp p.2 q.2).swap = jcmp q.2 p.2) ∧ ((jcmp p.2 r.2).swap = jcmp r.2 p.2) ∧
      (jcmp p.2 q.2 = .eq → jcmp p.2 r.2 = jcmp q.2 r.2) ∧
      (jcmp q.2 r.2 = .eq → jcmp q.2 p.2 = jcmp r.2 p.2) ∧
      (jcmp p.2 q.2 = .lt → jcmp q.2 r.2 = .lt → jcmp p.2 r.2 = .lt)) →
    jcmpKV as bs = .lt → jcmpKV bs xs = .lt → jcmpKV as xs = .lt := by
  intro as
  induction as with
  | nil =>
    intro bs xs _ h1 h2
    cases bs with
    | nil => exact absurd h1 (by decide)
    | cons q bs =>
      cases xs with
      | nil => exact absurd h2 (by simp [jcmpKV])
      | cons r xs => rfl
  | cons p as ih =>
    intro bs xs hp h1 h2
    cases bs with
    | nil => exact absurd h1 (by simp [jcmpKV])
    | cons q bs =>
      cases xs with
      | nil => exact absurd h2 (by simp [jcmpKV])
      | cons r xs =>
        obtain ⟨k, v⟩ := p
        obtain ⟨k2, v2⟩ := q
        obtain ⟨k3, v3⟩ := r
        obtain ⟨hsab, hsax, hcl, hcr, htr⟩ :=
          hp (k, v) (by simp) (k2, v2) (by simp) (k3, v3) (by simp)
        have ihtail := ih bs xs (fun p2 hp2 q2 hq2 r2 hr2 =>
          hp p2 (by simp [hp2]) q2 (by simp [hq2]) r2 (by simp [hr2]))
        rw [jcmpKV, Ordering.then_eq_lt, Ordering.then_eq_lt] at h1 h2 ⊢
        rcases h1 with h1 | ⟨h1k, h1 | ⟨h1e, h1r⟩⟩
        · rcases h2 with h2 | ⟨h2k, _⟩
          · exact Or.inl (strCmp_trans h1 h2)
          · rw [strCmp_eq h2k] at h1
            exact Or.inl h1
        · rcases h2 with h2 | ⟨h2k, h2 | ⟨h2e, h2r⟩⟩
          · rw [← strCmp_eq h1k] at h2
            exact Or.inl h2
          · refine Or.inr ⟨by rw [strCmp_eq h1k, strCmp_eq h2k, strCmp_refl], Or.inl (htr h1 h2)⟩
          · refine Or.inr ⟨by rw [strCmp_eq h1k, strCmp_eq h2k, strCmp_refl], Or.inl ?_⟩
            have hba : jcmp v2 v = jcmp v3 v := hcr h2e
            have hx : jcmp v v3 = (jcmp v3 v).swap := by
              rw [← hsax, Ordering.swap_swap]
            rw [hx, ← hba, ← hsab, Ordering.swap_swap]
            exact h1
        · rcases h2 with h2 | ⟨h2k, h2 | ⟨h2e, h2r⟩⟩
          · rw [← strCmp_eq h1k] at h2
            exact Or.inl h2
          · exact Or.inr ⟨by rw [strCmp_eq h1k, strCmp_eq h2k, strCmp_refl],
              Or.inl ((hcl h1e) ▸ h2)⟩
          · exact Or.inr ⟨by rw [strCmp_eq h1k, strCmp_eq h2k, strCmp_refl],
              Or.inr ⟨(hcl h1e).symm ▸ h2e, ihtail h1r h2r⟩⟩

theorem json_sizeOf_pos (a : Json) : 0 < sizeOf a := by
  cases a <;> simp_arith

theorem elem_sizeOf_lt {a : Json} {as : List Json} (h : a ∈ as) :
    sizeOf a < sizeOf (Json.arr as) := by
  have h1 := List.sizeOf_lt_of_mem h
  have h2 : sizeOf (Json.arr as) = 1 + sizeOf as := by simp
  omega

theorem kv_sizeOf_lt {p : String × Json} {kvs : List (String × Json)}
    (h : p ∈ kvs) : sizeOf p.2 < sizeOf (Json.obj kvs) := by
  have h1 := List.sizeOf_lt_of_mem h
  obtain ⟨k, v⟩ := p
  have h2 : sizeOf (k, v) = 1 + sizeOf k + sizeOf v := by simp
  have h3 : sizeOf (Json.obj kvs) = 1 + sizeOf kvs := by simp
  simp only []
  omega

theorem jcmp_laws_aux : ∀ N : ℕ, ∀ a b x : Json,
    sizeOf a + sizeOf b + sizeOf x ≤ N →
    ((jcmp a b).swap = jcmp b a) ∧
    (jcmp a b = .eq → jcmp a x = jcmp b x) ∧
    (jcmp a b = .lt → jcmp b x = .lt → jcmp a x = .lt) := by
  intro N
  induction N with
  | zero =>
    intro a b x h
    have ha := json_sizeOf_pos a
    have hb := json_sizeOf_pos b
    have hx := json_sizeOf_pos x
    omega
  | succ N ih =>
    intro a b x hN
    have hxpos := json_sizeOf_pos x
    have hapos := json_sizeOf_pos a
    have hbpos := json_sizeOf_pos b
    have hnull : sizeOf Json.null = 1 := rfl
    refine ⟨?_, ?_, ?_⟩
    -- swap
    · by_cases hr : a.rank = b.rank
      · cases a with
        | null =>
          have hb2 : b = .null := eq_null_of_rank hr.symm
          subst hb2; rfl
        | bool v =>
          obtain ⟨w, rfl⟩ := eq_bool_of_rank (b := b) hr.symm
          simp only [jcmp]
          exact cmp3_swap v w
        | num n =>
          obtain ⟨m, rfl⟩ := eq_num_of_rank (b := b) hr.symm
          simp only [jcmp]
          exact cmp3_swap _ _
        | str s =>
          obtain ⟨t, rfl⟩ := eq_str_of_rank (b := b) hr.symm
          simp only [jcmp]
          exact strCmp_swap s t
        | arr as =>
          obtain ⟨bs, rfl⟩ := eq_arr_of_rank (b := b) hr.symm
          simp only [jcmp]
          rw [Ordering.swap_then, cmp3_swap]
          congr 1
          apply jcmpL_swap
          intro a2 ha2 b2 hb2
          have h1 := elem_sizeOf_lt ha2
          have h2 := elem_sizeOf_lt hb2
          exact (ih a2 b2 Json.null (by omega)).1
        | obj akv =>
          obtain ⟨bkv, rfl⟩ := eq_obj_of_rank (b := b) hr.symm
          simp only [jcmp]
          rw [Ordering.swap_then, cmp3_swap]
          congr 1
          apply jcmpKV_swap
          intro p hp2 q hq2
          have h1 := kv_sizeOf_lt hp2
          have h2 := kv_sizeOf_lt hq2
          exact (ih p.2 q.2 Json.null (by omega)).1
      · rw [jcmp_mixed a b hr, jcmp_mixed b a (fun hh => hr hh.symm), cmp3_swap]
    -- congruence on the left argument
    · intro he
      by_cases hr : a.rank = b.rank
      · cases a with
        | null =>
          have hb2 : b = .null := eq_null_of_rank hr.symm
          subst hb2; rfl
        | bool v =>
          obtain ⟨w, rfl⟩ := eq_bool_of_rank (b := b) hr.symm
          simp only [jcmp] at he
          rw [(cmp3_eq_iff v w).1 he]
        | num n =>
          obtain ⟨m, rfl⟩ := eq_num_of_rank (b := b) hr.symm
          simp only [jcmp] at he
          have hq : n.q = m.q := (cmp3_eq_iff _ _).1 he
          by_cases hx : x.rank = 2
          · obtain ⟨p, rfl⟩ := eq_num_of_rank hx
            simp only [jcmp, hq]
          · rw [jcmp_mixed (.num n) x (fun hh => hx hh.symm),
              jcmp_mixed (.num m) x (fun hh => hx hh.symm)]
            rfl
        | str s =>
          obtain ⟨t, rfl⟩ := eq_str_of_rank (b := b) hr.symm
          simp only [jcmp] at he
          rw [strCmp_eq he]
        | arr as =>
          obtain ⟨bs, rfl⟩ := eq_arr_of_rank (b := b) hr.symm
          simp only [jcmp] at he
          rw [Ordering.then_eq_eq] at he
          obtain ⟨hlen, hl⟩ := he
          have hlen2 : as.length = bs.length := (cmp3_eq_iff _ _).1 hlen
          by_cases hx : x.rank = 4
          · obtain ⟨xs, rfl⟩ := eq_arr_of_rank hx
            simp only [jcmp, hlen2]
            congr 1
            apply jcmpL_congr as bs xs ?_ hl
            intro a2 ha2 b2 hb2 x2 hx2 hab
            have h1 := elem_sizeOf_lt ha2
            have h2 := elem_sizeOf_lt hb2
            have h3 := elem_sizeOf_lt hx2
            exact (ih a2 b2 x2 (by omega)).2.1 hab
          · rw [jcmp_mixed (.arr as) x (fun hh => hx hh.symm),
              jcmp_mixed (.arr bs) x (fun hh => hx hh.symm)]
            rfl
        | obj akv =>
          obtain ⟨bkv, rfl⟩ := eq_obj_of_rank (b := b) hr.symm
          simp only [jcmp] at he
          rw [Ordering.then_eq_eq] at he
          obtain ⟨hlen, hl⟩ := he
          have hlen2 : akv.length = bkv.length := (cmp3_eq_iff _ _).1 hlen
          by_cases hx : x.rank = 5
          · obtain ⟨xkv, rfl⟩ := eq_obj_of_rank hx
            simp only [jcmp, hlen2]
            congr 1
            apply jcmpKV_congr akv bkv xkv ?_ hl
            intro p hp2 q hq2 r hr2 hpq
            have h1 := kv_sizeOf_lt hp2
            have h2 := kv_sizeOf_lt hq2
            have h3 := kv_sizeOf_lt hr2
            exact (ih p.2 q.2 r.2 (by omega)).2.1 hpq
          · rw [jcmp_mixed (.obj akv) x (fun hh => hx hh.symm),
              jcmp_mixed (.obj bkv) x (fun hh => hx hh.symm)]
            rfl
      · rw [jcmp_mixed a b hr] at he
        exact absurd ((cmp3_eq_iff _ _).1 he) hr
    -- transitivity of lt
    · intro h1 h2
      by_cases hab : a.rank = b.rank
      · by_cases hbx : b.rank = x.rank
        · -- all three in the same kind class
          cases a with
          | null =>
            have hb2 : b = .null := eq_null_of_rank hab.symm
            subst hb2
            exact absurd h1 (by decide)
          | bool v =>
            obtain ⟨w, rfl⟩ := eq_bool_of_rank (b := b) hab.symm
            obtain ⟨u, rfl⟩ := eq_bool_of_rank (b := x) hbx.symm
            simp only [jcmp] at h1 h2 ⊢
            exact cmp3_trans h1 h2
          | num n =>
            obtain ⟨m, rfl⟩ := eq_num_of_rank (b := b) hab.symm
            obtain ⟨p, rfl⟩ := eq_num_of_rank (b := x) hbx.symm
            simp only [jcmp] at h1 h2 ⊢
            exact cmp3_trans h1 h2
          | str s =>
            obtain ⟨t, rfl⟩ := eq_str_of_rank (b := b) hab.symm
            obtain ⟨u, rfl⟩ := eq_str_of_rank (b := x) hbx.symm
            simp only [jcmp] at h1 h2 ⊢
            exact strCmp_trans h1 h2
          | arr as =>
            obtain ⟨bs, rfl⟩ := eq_arr_of_rank (b := b) hab.symm
            obtain ⟨xs, rfl⟩ := eq_arr_of_rank (b := x) hbx.symm
            simp only [jcmp] at h1 h2 ⊢
            rw [Ordering.then_eq_lt] at h1 h2 ⊢
            have hptw : ∀ a2 ∈ as, ∀ b2 ∈ bs, ∀ x2 ∈ xs,
                ((jcmp a2 b2).swap = jcmp b2 a2) ∧ ((jcmp a2 x2).swap = jcmp x2 a2) ∧
                (jcmp a2 b2 = .eq → jcmp a2 x2 = jcmp b2 x2) ∧
                (jcmp b2 x2 = .eq → jcmp b2 a2 = jcmp x2 a2) ∧
                (jcmp a2 b2 = .lt → jcmp b2 x2 = .lt → jcmp a2 x2 = .lt) := by
              intro a2 ha2 b2 hb2 x2 hx2
              have s1 := elem_sizeOf_lt ha2
              have s2 := elem_sizeOf_lt hb2
              have s3 := elem_sizeOf_lt hx2
              exact ⟨(ih a2 b2 Json.null (by omega)).1,
                (ih a2 x2 Json.null (by omega)).1,
                (ih a2 b2 x2 (by omega)).2.1,
                (ih b2 x2 a2 (by omega)).2.1,
                (ih a2 b2 x2 (by omega)).2.2⟩
            rcases h1 with h1 | ⟨h1e, h1r⟩
            · rcases h2 with h2 | ⟨h2e, h2r⟩
              · exact Or.inl (cmp3_trans h1 h2)
              · rw [(cmp3_eq_iff _ _).1 h2e] at h1
                exact Or.inl h1
            · rcases h2 with h2 | ⟨h2e, h2r⟩
              · rw [← (cmp3_eq_iff _ _).1 h1e] at h2
                exact Or.inl h2
              · rw [(cmp3_eq_iff _ _).1 h1e, (cmp3_eq_iff _ _).1 h2e]
                exact Or.inr ⟨(cmp3_eq_iff _ _).2 rfl, jcmpL_trans as bs xs hptw h1r h2r⟩
          | obj akv =>
            obtain ⟨bkv, rfl⟩ := eq_obj_of_rank (b := b) hab.symm
            obtain ⟨xkv, rfl⟩ := eq_obj_of_rank (b := x) hbx.symm
            simp only [jcmp] at h1 h2 ⊢
            rw [Ordering.then_eq_lt] at h1 h2 ⊢
            have hptw : ∀ p ∈ akv, ∀ q ∈ bkv, ∀ r ∈ xkv,
                ((jcmp p.2 q.2).swap = jcmp q.2 p.2) ∧
                ((jcmp p.2 r.2).swap = jcmp r.2 p.2) ∧
                (jcmp p.2 q.2 = .eq → jcmp p.2 r.2 = jcmp q.2 r.2) ∧
                (jcmp q.2 r.2 = .eq → jcmp q.2 p.2 = jcmp r.2 p.2) ∧
                (jcmp p.2 q.2 = .lt → jcmp q.2 r.2 = .lt → jcmp p.2 r.2 = .lt) := by
              intro p hp2 q hq2 r hr2
              have s1 := kv_sizeOf_lt hp2
              have s2 := kv_sizeOf_lt hq2
              have s3 := kv_sizeOf_lt hr2
              exact ⟨(ih p.2 q.2 Json.null (by omega)).1,
                (ih p.2 r.2 Json.null (by omega)).1,
                (ih p.2 q.2 r.2 (by omega)).2.1,
                (ih q.2 r.2 p.2 (by omega)).2.1,
                (ih p.2 q.2 r.2 (by omega)).2.2⟩
            rcases h1 with h1 | ⟨h1e, h1r⟩
            · rcases h2 with h2 | ⟨h2e, h2r⟩
              · exact Or.inl (cmp3_trans h1 h2)
              · rw [(cmp3_eq_iff _ _).1 h2e] at h1
                exact Or.inl h1
            · rcases h2 with h2 | ⟨h2e, h2r⟩
              · rw [← (cmp3_eq_iff _ _).1 h1e] at h2
                exact Or.inl h2
              · rw [(cmp3_eq_iff _ _).1 h1e, (cmp3_eq_iff _ _).1 h2e]
                exact Or.inr ⟨(cmp3_eq_iff _ _).2 rfl, jcmpKV_trans akv bkv xkv hptw h1r h2r⟩
        · -- b and x in different classes
          rw [jcmp_mixed b x hbx] at h2
          have hbx2 : b.rank < x.rank := (cmp3_lt_iff _ _).1 h2
          have hax : a.rank < x.rank := by omega
          rw [jcmp_mixed a x (by omega)]
          exact (cmp3_lt_iff _ _).2 hax
      · -- a and b in different classes
        rw [jcmp_mixed a b hab] at h1
        have hab2 : a.rank < b.rank := (cmp3_lt_iff _ _).1 h1
        by_cases hbx : b.rank = x.rank
        · have hax : a.rank < x.rank := by omega
          rw [jcmp_mixed a x (by omega)]
          exact (cmp3_lt_iff _ _).2 hax
        · rw [jcmp_mixed b x hbx] at h2
          have hbx2 : b.rank < x.rank := (cmp3_lt_iff _ _).1 h2
          have hax : a.rank < x.rank := by omega
          rw [jcmp_mixed a x (by omega)]
          exact (cmp3_lt_iff _ _).2 hax

theorem jcmp_swap (a b : Json) : (jcmp a b).swap = jcmp b a :=
  (jcmp_laws_aux (sizeOf a + sizeOf b + sizeOf Json.null) a b Json.null le_rfl).1

theorem jcmp_congr {a b : Json} (x : Json) (h : jcmp a b = .eq) :
    jcmp a x = jcmp b x :=
  (jcmp_laws_aux (sizeOf a + sizeOf b + sizeOf x) a b x le_rfl).2.1 h

theorem jcmp_trans {a b x : Json} (h1 : jcmp a b = .lt) (h2 : jcmp b x = .lt) :
    jcmp a x = .lt :=
  (jcmp_laws_aux (sizeOf a + sizeOf b + sizeOf x) a b x le_rfl).2.2 h1 h2

/-- C4: the comparison on values is a total order.  With `V₁ < V₂` defined as
`jcmp V₁ V₂ = lt`, `V₁ = V₂` as `jcmp V₁ V₂ = eq` (the library's logical
equality) and `V₁ > V₂` as `jcmp V₂ V₁ = lt`: exactly one of the three holds
for any pair, `<` is transitive, and values of different kind classes
compare by class rank, `Object > Array > Boolean > Number > String > Null`
(the `Json.rank` order). -/
theorem C4_total_order :
    (∀ a b : Json,
      (jcmp a b = .lt ∧ ¬ jcmp a b = .eq ∧ ¬ jcmp b a = .lt) ∨
      (¬ jcmp a b = .lt ∧ jcmp a b = .eq ∧ ¬ jcmp b a = .lt) ∨
      (¬ jcmp a b = .lt ∧ ¬ jcmp a b = .eq ∧ jcmp b a = .lt)) ∧
    (∀ a b x : Json, jcmp a b = .lt → jcmp b x = .lt → jcmp a x = .lt) ∧
    (∀ a b : Json, a.rank < b.rank → jcmp a b = .lt ∧ jcmp b a = .gt) := by
  refine ⟨?_, fun a b x h1 h2 => jcmp_trans h1 h2, ?_⟩
  · intro a b
    have hs := jcmp_swap a b
    cases hab : jcmp a b with
    | lt =>
      refine Or.inl ⟨rfl, by simp, ?_⟩
      rw [hab] at hs
      rw [← hs]
      decide
    | eq =>
      refine Or.inr (Or.inl ⟨by simp, rfl, ?_⟩)
      rw [hab] at hs
      rw [← hs]
      decide
    | gt =>
      refine Or.inr (Or.inr ⟨by simp, by simp, ?_⟩)
      rw [hab] at hs
      rw [← hs]
      rfl
  · intro a b hrank
    have hne : a.rank ≠ b.rank := by omega
    have h1 : jcmp a b = .lt := by
      rw [jcmp_mixed a b hne]
      exact (cmp3_lt_iff _ _).2 hrank
    refine ⟨h1, ?_⟩
    have hs := jcmp_swap a b
    rw [h1] at hs
    exact hs.symm

/-- Witness for C4: the spec's chain `null < "str"` and `"str" < -1` give
`null < -1` by the transitivity clause, and `String` ranks below `Number`. -/
theorem C4_total_order_witness :
    jcmp Json.null (Json.num (.int (-1))) = .lt ∧
    jcmp (Json.str "str") (Json.num (.int (-1))) = .lt ∧
    jcmp (Json.num (.int (-1))) (Json.str "str") = .gt := by
  refine ⟨C4_total_order.2.1 Json.null (Json.str "str") (Json.num (.int (-1)))
    (by rfl) (by rfl), ?_, ?_⟩
  · exact (C4_total_order.2.2 (Json.str "str") (Json.num (.int (-1))) (by decide)).1
  · exact (C4_total_order.2.2 (Json.str "str") (Json.num (.int (-1))) (by decide)).2

/-! ## C6: object canonicalization — sorted unique keys, last write wins -/

theorem strLtb_iff (a b : String) : strLtb a b = true ↔ strCmp a b = .lt := by
  cases h : strCmp a b <;> rw [strLtb, h] <;> decide

theorem strCmp_gt_iff (a b : String) : strCmp a b = .gt ↔ strCmp b a = .lt := by
  have h := strCmp_swap b a
  constructor
  · intro hh
    cases hba : strCmp b a with
    | lt => rfl
    | eq => rw [hba] at h; rw [← h] at hh; exact absurd hh (by decide)
    | gt => rw [hba] at h; rw [← h] at hh; exact absurd hh (by decide)
  · intro hh
    rw [hh] at h
    exact h.symm

theorem mem_insertKV {q kv : String × Json} {l : List (String × Json)}
    (h : q ∈ insertKV kv l) : q = kv ∨ q ∈ l := by
  induction l with
  | nil =>
    rw [insertKV] at h
    rcases List.mem_singleton.1 h with rfl
    exact Or.inl rfl
  | cons p rest ih =>
    rw [insertKV] at h
    split_ifs at h with h1 h2
    · rcases List.mem_cons.1 h with rfl | hm
      · exact Or.inl rfl
      · exact Or.inr (List.mem_cons.2 (Or.inr hm))
    · rcases List.mem_cons.1 h with rfl | hm
      · exact Or.inl rfl
      · exact Or.inr hm
    · rcases List.mem_cons.1 h with rfl | hm
      · exact Or.inr (List.mem_cons.2 (Or.inl rfl))
      · rcases ih hm with hq | hq
        · exact Or.inl hq
        · exact Or.inr (List.mem_cons.2 (Or.inr hq))

theorem pairwise_insertKV {kv : String × Json} {l : List (String × Json)}
    (h : List.Pairwise (fun p q : String × Json => strCmp p.1 q.1 = .lt) l) :
    List.Pairwise (fun p q : String × Json => strCmp p.1 q.1 = .lt)
      (insertKV kv l) := by
  induction l with
  | nil => simp [insertKV]
  | cons p rest ih =>
    rw [insertKV]
    rw [List.pairwise_cons] at h
    obtain ⟨hp, hrest⟩ := h
    split_ifs with h1 h2
    · exact List.pairwise_cons.2 ⟨fun q hq => h1 ▸ hp q hq, hrest⟩
    · refine List.pairwise_cons.2 ⟨?_, List.pairwise_cons.2 ⟨hp, hrest⟩⟩
      intro q hq
      rcases List.mem_cons.1 hq with rfl | hq2
      · exact (strLtb_iff _ _).1 h2
      · exact strCmp_trans ((strLtb_iff _ _).1 h2) (hp q hq2)
    · refine List.pairwise_cons.2 ⟨?_, ih hrest⟩
      intro q hq
      rcases mem_insertKV hq with rfl | hq2
      · have h3 : strCmp q.1 p.1 ≠ .lt := fun hc => h2 ((strLtb_iff _ _).2 hc)
        have h4 : strCmp q.1 p.1 ≠ .eq := fun hc => h1 (strCmp_eq hc)
        cases hc : strCmp q.1 p.1 with
        | lt => exact absurd hc h3
        | eq => exact absurd hc h4
        | gt => exact (strCmp_gt_iff _ _).1 hc
      · exact hp q hq2

theorem lookupKV_insertKV (k : String) (kv : String × Json)
    (l : List (String × Json)) :
    lookupKV k (insertKV kv l) =
      if kv.1 = k then some kv.2 else lookupKV k l := by
  induction l with
  | nil => simp [insertKV, lookupKV]
  | cons p rest ih =>
    by_cases h1 : kv.1 = p.1
    · rw [insertKV, if_pos h1]
      show (if kv.1 = k then some kv.2 else lookupKV k rest) = _
      by_cases h3 : kv.1 = k
      · rw [if_pos h3, if_pos h3]
      · rw [if_neg h3, if_neg h3]
        show lookupKV k rest = if p.1 = k then some p.2 else lookupKV k rest
        rw [if_neg (fun hc => h3 (h1.trans hc))]
    · by_cases h2 : strLtb kv.1 p.1 = true
      · rw [insertKV, if_neg h1, if_pos h2]
        rfl
      · rw [insertKV, if_neg h1, if_neg h2]
        show (if p.1 = k then some p.2 else lookupKV k (insertKV kv rest)) = _
        rw [ih]
        by_cases h3 : p.1 = k
        · rw [if_pos h3, if_neg (fun hc : kv.1 = k => h1 (hc.trans h3.symm))]
          show some p.2 = if p.1 = k then some p.2 else lookupKV k rest
          rw [if_pos h3]
        · rw [if_neg h3]
          by_cases h4 : kv.1 = k
          · rw [if_pos h4, if_pos h4]
          · rw [if_neg h4, if_neg h4]
            show lookupKV k rest = if p.1 = k then some p.2 else lookupKV k rest
            rw [if_neg h3]

theorem mkObj_foldl_lookup (k : String) :
    ∀ (kvs : List (String × Json)) (acc : List (String × Json)),
      lookupKV k (kvs.foldl (fun a kv => insertKV kv a) acc) =
        kvs.foldl (fun a p => if p.1 = k then some p.2 else a) (lookupKV k acc) := by
  intro kvs
  induction kvs with
  | nil => intro acc; rfl
  | cons kv rest ih =>
    intro acc
    rw [List.foldl_cons, List.foldl_cons, ih, lookupKV_insertKV]

/-- last-write-wins lookup on the canonicalized object. -/
theorem mkObj_lookup (kvs : List (String × Json)) (k : String) :
    lookupKV k (mkObj kvs) = lastWins k kvs := by
  rw [mkObj, lastWins, mkObj_foldl_lookup]
  rfl

theorem mkObj_foldl_sorted :
    ∀ (kvs acc : List (String × Json)),
      List.Pairwise (fun p q : String × Json => strCmp p.1 q.1 = .lt) acc →
      List.Pairwise (fun p q : String × Json => strCmp p.1 q.1 = .lt)
        (kvs.foldl (fun a kv => insertKV kv a) acc) := by
  intro kvs
  induction kvs with
  | nil => intro acc h; exact h
  | cons kv rest ih =>
    intro acc h
    rw [List.foldl_cons]
    exact ih _ (pairwise_insertKV h)

theorem mkObj_sorted (kvs : List (String × Json)) :
    List.Pairwise (fun p q : String × Json => strCmp p.1 q.1 = .lt) (mkObj kvs) :=
  mkObj_foldl_sorted kvs [] (by simp)

theorem mem_mkObj_foldl {q : String × Json} :
    ∀ {kvs acc : List (String × Json)},
      q ∈ kvs.foldl (fun a kv => insertKV kv a) acc → q ∈ acc ∨ q ∈ kvs := by
  intro kvs
  induction kvs with
  | nil => intro acc h; exact Or.inl h
  | cons kv rest ih =>
    intro acc h
    rw [List.foldl_cons] at h
    rcases ih h with hm | hm
    · rcases mem_insertKV hm with rfl | hm2
      · exact Or.inr (by simp)
      · exact Or.inl hm2
    · exact Or.inr (by simp [hm])

theorem mem_mkObj {q : String × Json} {kvs : List (String × Json)}
    (h : q ∈ mkObj kvs) : q ∈ kvs := by
  rcases mem_mkObj_foldl h with hm | hm
  · exact absurd hm (by simp)
  · exact hm

theorem sortedKeysB_iff :
    ∀ l : List (String × Json), sortedKeysB l = true ↔
      List.Pairwise (fun p q : String × Json => strCmp p.1 q.1 = .lt) l := by
  intro l
  induction l with
  | nil => simp [sortedKeysB]
  | cons p rest ih =>
    cases rest with
    | nil => simp [sortedKeysB]
    | cons q rest2 =>
      rw [sortedKeysB, Bool.and_eq_true, ih]
      constructor
      · rintro ⟨h1, h2⟩
        rw [List.pairwise_cons]
        refine ⟨?_, h2⟩
        intro x hx
        rcases List.mem_cons.1 hx with rfl | hx2
        · exact (strLtb_iff _ _).1 h1
        · exact strCmp_trans ((strLtb_iff _ _).1 h1)
            ((List.pairwise_cons.1 h2).1 x hx2)
      · intro hp
        rw [List.pairwise_cons] at hp
        exact ⟨(strLtb_iff _ _).2 (hp.1 q (by simp)), hp.2⟩

theorem objsSortedL_iff : ∀ l : List Json,
    objsSortedL l = true ↔ ∀ x ∈ l, objsSorted x = true := by
  intro l
  induction l with
  | nil => simp [objsSortedL]
  | cons x xs ih => simp [objsSortedL, ih]

theorem objsSortedKV_iff : ∀ l : List (String × Json),
    objsSortedKV l = true ↔ ∀ p ∈ l, objsSorted p.2 = true := by
  intro l
  induction l with
  | nil => simp [objsSortedKV]
  | cons p ps ih => simp [objsSortedKV, ih]

theorem sortedKeysB_mkObj (kvs : List (String × Json)) :
    sortedKeysB (mkObj kvs) = true :=
  (sortedKeysB_iff _).2 (mkObj_sorted kvs)

theorem parse_sorted : ∀ fuel : ℕ,
    (∀ cs j rest, parseV fuel cs = some (j, rest) → objsSorted j = true) ∧
    (∀ cs js rest, parseItems fuel cs = some (js, rest) → objsSortedL js = true) ∧
    (∀ cs kvs rest, parseMembers fuel cs = some (kvs, rest) →
      objsSortedKV kvs = true) := by
  intro fuel
  induction fuel with
  | zero =>
    refine ⟨?_, ?_, ?_⟩ <;> intro cs j rest h
    · rw [parseV] at h; exact absurd h (by simp)
    · rw [parseItems] at h; exact absurd h (by simp)
    · rw [parseMembers] at h; exact absurd h (by simp)
  | succ fuel ih =>
    obtain ⟨ihV, ihI, ihM⟩ := ih
    refine ⟨?_, ?_, ?_⟩
    · intro cs j rest h
      rw [parseV] at h
      split at h
      · simp only [Option.some.injEq, Prod.mk.injEq] at h
        obtain ⟨rfl, rfl⟩ := h
        rfl
      · simp only [Option.some.injEq, Prod.mk.injEq] at h
        obtain ⟨rfl, rfl⟩ := h
        rfl
      · simp only [Option.some.injEq, Prod.mk.injEq] at h
        obtain ⟨rfl, rfl⟩ := h
        rfl
      · simp only [Option.map_eq_some'] at h
        obtain ⟨⟨s, r2⟩, _, h2⟩ := h
        simp only [Prod.mk.injEq] at h2
        obtain ⟨rfl, rfl⟩ := h2
        rfl
      · split at h
        · simp only [Option.some.injEq, Prod.mk.injEq] at h
          obtain ⟨rfl, rfl⟩ := h
          rfl
        · simp only [Option.map_eq_some'] at h
          obtain ⟨⟨js, r2⟩, hi, h2⟩ := h
          simp only [Prod.mk.injEq] at h2
          obtain ⟨rfl, rfl⟩ := h2
          exact ihI _ _ _ hi
      · split at h
        · simp only [Option.some.injEq, Prod.mk.injEq] at h
          obtain ⟨rfl, rfl⟩ := h
          rfl
        · simp only [Option.map_eq_some'] at h
          obtain ⟨⟨kvs, r2⟩, hm, h2⟩ := h
          simp only [Prod.mk.injEq] at h2
          obtain ⟨rfl, rfl⟩ := h2
          show (sortedKeysB (mkObj kvs) && objsSortedKV (mkObj kvs)) = true
          rw [sortedKeysB_mkObj, Bool.true_and]
          rw [objsSortedKV_iff]
          intro p hp
          exact (objsSortedKV_iff kvs).1 (ihM _ _ _ hm) p (mem_mkObj hp)
      · simp only [Option.map_eq_some'] at h
        obtain ⟨⟨n, r2⟩, _, h2⟩ := h
        simp only [Prod.mk.injEq] at h2
        obtain ⟨rfl, rfl⟩ := h2
        rfl
    · intro cs js rest h
      rw [parseItems] at h
      split at h
      · exact absurd h (by simp)
      · rename_i j r1 hV
        split at h
        · simp only [Option.map_eq_some'] at h
          obtain ⟨⟨js2, r2⟩, hi, h2⟩ := h
          simp only [Prod.mk.injEq] at h2
          obtain ⟨rfl, rfl⟩ := h2
          show (objsSorted j && objsSortedL js2) = true
          rw [ihV _ _ _ hV, ihI _ _ _ hi]
          rfl
        · simp only [Option.some.injEq, Prod.mk.injEq] at h
          obtain ⟨rfl, rfl⟩ := h
          show (objsSorted j && objsSortedL []) = true
          rw [ihV _ _ _ hV]
          rfl
        · exact absurd h (by simp)
    · intro cs kvs rest h
      rw [parseMembers] at h
      split at h
      · split at h
        · exact absurd h (by simp)
        · rename_i k r2 hSB
          split at h
          · split at h
            · exact absurd h (by simp)
            · rename_i v r4 hV
              split at h
              · simp only [Option.map_eq_some'] at h
                obtain ⟨⟨kvs2, r5⟩, hm, h2⟩ := h
                simp only [Prod.mk.injEq] at h2
                obtain ⟨rfl, rfl⟩ := h2
                show (objsSorted v && objsSortedKV kvs2) = true
                rw [ihV _ _ _ hV, ihM _ _ _ hm]
                rfl
              · simp only [Option.some.injEq, Prod.mk.injEq] at h
                obtain ⟨rfl, rfl⟩ := h
                show (objsSorted v && objsSortedKV []) = true
                rw [ihV _ _ _ hV]
                rfl
              · exact absurd h (by simp)
          · exact absurd h (by simp)
      · exact absurd h (by simp)

/-- C6: every object anywhere inside a parsed value has strictly ascending,
duplicate-free keys in the canonical byte order — each object is built by
the `end_object` canonicalization `mkObj`, whose output is strictly sorted —
and when the same key is supplied more than once while building one object,
lookup retains the last-inserted value (`lastWins`). -/
theorem C6_objects_sorted_last_wins :
    (∀ s j, parseJson s = some j → objsSorted j = true) ∧
    (∀ kvs : List (String × Json),
      List.Pairwise (fun p q : String × Json => strCmp p.1 q.1 = .lt) (mkObj kvs) ∧
      sortedKeysB (mkObj kvs) = true) ∧
    (∀ (kvs : List (String × Json)) (k : String),
      lookupKV k (mkObj kvs) = lastWins k kvs) := by
  refine ⟨?_, fun kvs => ⟨mkObj_sorted kvs, sortedKeysB_mkObj kvs⟩, mkObj_lookup⟩
  intro s j h
  rw [parseJson] at h
  split at h
  · exact absurd h (by simp)
  · rename_i j2 rest hV
    split at h
    · simp only [Option.some.injEq] at h
      subst h
      exact (parse_sorted _).1 _ _ _ hV
    · exact absurd h (by simp)

/-- Witness for C6: the spec's example — parsing `{"b":2,"a":1}` yields the
object with iteration order `a, b`, printing as `{"a":1,"b":2}`; building
with a duplicate key keeps the last value. -/
theorem C6_objects_sorted_last_wins_witness :
    parseJson "\x7b\"b\":2,\"a\":1\x7d" =
      some (Json.obj [("a", Json.num (.int 1)), ("b", Json.num (.int 2))]) ∧
    printJson (Json.obj [("a", Json.num (.int 1)), ("b", Json.num (.int 2))]) =
      "\x7b\"a\":1,\"b\":2\x7d" ∧
    objsSorted (Json.obj [("a", Json.num (.int 1)), ("b", Json.num (.int 2))]) = true ∧
    lookupKV "a" (mkObj [("a", Json.num (.int 1)), ("a", Json.num (.int 2))]) =
      some (Json.num (.int 2)) := by
  refine ⟨by rfl, by rfl, ?_, ?_⟩
  · exact (C6_objects_sorted_last_wins.1 "\x7b\"b\":2,\"a\":1\x7d" _ (by rfl))
  · rw [C6_objects_sorted_last_wins.2.2]
    rfl

/-! ## C5: equality is logical, not byte-wise -/

theorem insertKV_perm {kv : String × Json} {l : List (String × Json)}
    (h : kv.1 ∉ keysOf l) : (insertKV kv l).Perm (kv :: l) := by
  induction l with
  | nil => rw [insertKV]
  | cons p rest ih =>
    rw [keysOf, List.map_cons, List.mem_cons] at h
    push_neg at h
    obtain ⟨h1, h2⟩ := h
    rw [insertKV, if_neg h1]
    split_ifs with h3
    · exact List.Perm.refl _
    · exact ((ih h2).cons p).trans (List.Perm.swap kv p rest)

theorem mkObj_foldl_perm :
    ∀ (kvs acc : List (String × Json)),
      (keysOf (kvs ++ acc)).Nodup →
      (kvs.foldl (fun a kv => insertKV kv a) acc).Perm (kvs ++ acc) := by
  intro kvs
  induction kvs with
  | nil => intro acc _; exact List.Perm.refl _
  | cons kv rest ih =>
    intro acc hnd
    rw [List.foldl_cons]
    have hins : (insertKV kv acc).Perm (kv :: acc) := by
      apply insertKV_perm
      rw [keysOf, List.cons_append, List.map_cons, List.nodup_cons] at hnd
      intro hc
      exact hnd.1 (by
        rw [List.map_append, List.mem_append]
        exact Or.inr hc)
    have hperm2 : (keysOf (rest ++ insertKV kv acc)).Perm
        (keysOf ((kv :: rest) ++ acc)) := by
      rw [keysOf, keysOf, List.map_append, List.map_append]
      refine (List.Perm.append_left _ (hins.map Prod.fst)).trans ?_
      rw [List.map_cons, List.map_cons, List.cons_append]
      exact List.perm_middle
    have hnd2 : (keysOf (rest ++ insertKV kv acc)).Nodup :=
      (hperm2.nodup_iff).2 hnd
    refine (ih (insertKV kv acc) hnd2).trans ?_
    refine (List.Perm.append_left rest hins).trans ?_
    exact List.perm_middle.trans (List.Perm.refl _)

theorem mkObj_perm {kvs : List (String × Json)} (h : (keysOf kvs).Nodup) :
    (mkObj kvs).Perm kvs := by
  have := mkObj_foldl_perm kvs [] (by rw [List.append_nil]; exact h)
  rw [List.append_nil] at this
  exact this

theorem mkObj_perm_invariant {kvs kvs2 : List (String × Json)}
    (hp : kvs.Perm kvs2) (hnd : (keysOf kvs).Nodup) : mkObj kvs = mkObj kvs2 := by
  have hanti : IsAntisymm (String × Json) (fun p q => strCmp p.1 q.1 = .lt) :=
    ⟨fun p q h1 h2 => absurd (h1.symm.trans ((strCmp_gt_iff _ _).2 h2)) (by decide)⟩
  have hnd2 : (keysOf kvs2).Nodup := ((hp.map Prod.fst).nodup_iff).1 hnd
  exact @List.eq_of_perm_of_sorted _ _ hanti _ _
    (((mkObj_perm hnd).trans hp).trans (mkObj_perm hnd2).symm)
    (mkObj_sorted kvs) (mkObj_sorted kvs2)

/-- C5: equality of values is logical, not byte-wise.  Numbers differing only
in encoding compare equal — any two number records with the same numeric
value are `eq`, in particular the integer `1` and the float `1.0` — and
object key insertion order is erased by the builder: `mkObj` yields the same
canonical member list for any two insertion orders of the same duplicate-free
members, and `parse("\x7b\"a\":1\x7d")` equals `parse("\x7b\"a\":1.0\x7d")`. -/
theorem C5_logical_equality :
    parseJson "\x7b\"a\":1\x7d" = some (Json.obj [("a", Json.num (.int 1))]) ∧
    parseJson "\x7b\"a\":1.0\x7d" = some (Json.obj [("a", Json.num (.float 10 0))]) ∧
    jcmp (Json.obj [("a", Json.num (.int 1))])
      (Json.obj [("a", Json.num (.float 10 0))]) = .eq ∧
    (∀ a b : JNum, a.q = b.q → jcmp (Json.num a) (Json.num b) = .eq) ∧
    (∀ kvs kvs2 : List (String × Json), kvs.Perm kvs2 → (keysOf kvs).Nodup →
      mkObj kvs = mkObj kvs2) := by
  refine ⟨by rfl, by rfl, ?_, ?_, fun kvs kvs2 hp hnd => mkObj_perm_invariant hp hnd⟩
  · simp only [jcmp, jcmpKV]
    rw [strCmp_refl]
    rw [(cmp3_eq_iff _ _).2 (show (JNum.int 1).q = (JNum.float 10 0).q by
      norm_num [JNum.q])]
    rfl
  · intro a b h
    show cmp3 a.q b.q = .eq
    exact (cmp3_eq_iff _ _).2 h

/-- Witness for C5: the numeric-equality clause at `1` versus `1.0` and the
insertion-order clause at the spec's two-member example. -/
theorem C5_logical_equality_witness :
    jcmp (Json.num (.int 1)) (Json.num (.float 10 0)) = .eq ∧
    mkObj [("b", Json.num (.int 2)), ("a", Json.num (.int 1))] =
      mkObj [("a", Json.num (.int 1)), ("b", Json.num (.int 2))] := by
  constructor
  · exact C5_logical_equality.2.2.2.1 (.int 1) (.float 10 0) (by norm_num [JNum.q])
  · exact C5_logical_equality.2.2.2.2 _ _
      (List.Perm.swap _ _ []) (by decide)

/-! ## C1: the parse–print roundtrip -/

theorem charNat_ofNat (n : ℕ) (h : n < 0xD800) : charNat (Char.ofNat n) = n := by
  have hv : n.isValidChar := Or.inl h
  show (Char.ofNat n).toNat = n
  rw [Char.ofNat, dif_pos hv]
  rfl

theorem charNat_valid_range (c : Char) :
    charNat c < 0xD800 ∨ (0xE000 ≤ charNat c ∧ charNat c < 0x110000) := by
  have h := c.valid
  unfold UInt32.isValidChar Nat.isValidChar at h
  exact h

theorem ofNat_charNat (c : Char) : Char.ofNat (charNat c) = c :=
  Char.ofNat_toNat c

theorem charNat_digitChar (d : ℕ) (h : d < 10) : charNat (digitChar d) = 48 + d :=
  charNat_ofNat _ (by omega)

theorem isDigit_digitChar (d : ℕ) (h : d < 10) :
    isDigitChar (digitChar d) = true := by
  rw [isDigitChar, charNat_digitChar d h]
  simp only [Bool.and_eq_true, decide_eq_true_eq]
  omega

theorem natDigsF_congr (n : ℕ) : ∀ f1 f2, n < f1 → n < f2 →
    natDigsF f1 n = natDigsF f2 n := by
  induction n using Nat.strong_induction_on with
  | _ n ih =>
    intro f1 f2 h1 h2
    obtain ⟨g1, rfl⟩ : ∃ g, f1 = g + 1 := ⟨f1 - 1, by omega⟩
    obtain ⟨g2, rfl⟩ : ∃ g, f2 = g + 1 := ⟨f2 - 1, by omega⟩
    rw [natDigsF, natDigsF]
    by_cases hn : n < 10
    · rw [if_pos hn, if_pos hn]
    · rw [if_neg hn, if_neg hn,
        ih (n / 10) (by omega) g1 g2 (by omega) (by omega)]

theorem natDigs_step (n : ℕ) :
    natDigs n =
      if n < 10 then [digitChar n]
      else natDigs (n / 10) ++ [digitChar (n % 10)] := by
  by_cases h : n < 10
  · rw [if_pos h, natDigs, natDigsF, if_pos h]
  · rw [if_neg h, natDigs, natDigsF, if_neg h, natDigs,
      natDigsF_congr (n / 10) n (n / 10 + 1) (by omega) (by omega)]

theorem natDigs_ne_nil (n : ℕ) : natDigs n ≠ [] := by
  rw [natDigs_step]
  by_cases h : n < 10
  · rw [if_pos h]; simp
  · rw [if_neg h]; simp

theorem natDigs_digits (n : ℕ) : ∀ c ∈ natDigs n, isDigitChar c = true := by
  induction n using Nat.strong_induction_on with
  | _ n ih =>
    rw [natDigs_step]
    by_cases h : n < 10
    · rw [if_pos h]
      intro c hc
      rcases List.mem_singleton.1 hc with rfl
      exact isDigit_digitChar n h
    · rw [if_neg h]
      intro c hc
      rcases List.mem_append.1 hc with h1 | h1
      · exact ih (n / 10) (by omega) c h1
      · rcases List.mem_singleton.1 h1 with rfl
        exact isDigit_digitChar _ (by omega)

theorem natDigs_len_le (n d : ℕ) (hd : 0 < d) (h : n < 10 ^ d) :
    (natDigs n).length ≤ d := by
  induction d generalizing n with
  | zero => omega
  | succ d ihd =>
    rw [natDigs_step]
    by_cases hn : n < 10
    · rw [if_pos hn]
      simp
    · rw [if_neg hn]
      have hd0 : 0 < d := by
        rcases Nat.eq_zero_or_pos d with h0 | h0
        · subst h0; norm_num at h; omega
        · exact h0
      have hdiv : n / 10 < 10 ^ d := by
        rw [Nat.div_lt_iff_lt_mul (by norm_num)]
        calc n < 10 ^ (d + 1) := h
        _ = 10 ^ d * 10 := by ring
      have := ihd (n / 10) hd0 hdiv
      simp only [List.length_append, List.length_cons, List.length_nil]
      omega

theorem digsVal_snoc (xs : List Char) (c : Char) :
    digsVal (xs ++ [c]) = digsVal xs * 10 + (charNat c - 48) := by
  simp [digsVal, List.foldl_append]

theorem digsVal_natDigs (n : ℕ) : digsVal (natDigs n) = n := by
  induction n using Nat.strong_induction_on with
  | _ n ih =>
    rw [natDigs_step]
    by_cases h : n < 10
    · rw [if_pos h]
      simp only [digsVal, List.foldl_cons, List.foldl_nil]
      rw [charNat_digitChar n h]
      omega
    · rw [if_neg h, digsVal_snoc, ih (n / 10) (by omega),
        charNat_digitChar _ (by omega)]
      omega

theorem digsVal_zeros_append (z : ℕ) (ds : List Char) :
    digsVal (List.replicate z '0' ++ ds) = digsVal ds := by
  induction z with
  | zero => rw [List.replicate_zero, List.nil_append]
  | succ z ihz =>
    rw [List.replicate_succ, List.cons_append]
    exact ihz

theorem padDigs_len (w n : ℕ) (hw : 0 < w) (h : n < 10 ^ w) :
    (padDigs w n).length = w := by
  have hl := natDigs_len_le n w hw h
  simp only [padDigs, List.length_append, List.length_replicate]
  omega

theorem padDigs_val (w n : ℕ) : digsVal (padDigs w n) = n := by
  rw [padDigs, digsVal_zeros_append, digsVal_natDigs]

theorem padDigs_digits (w n : ℕ) : ∀ c ∈ padDigs w n, isDigitChar c = true := by
  intro c hc
  rw [padDigs] at hc
  rcases List.mem_append.1 hc with h1 | h1
  · rcases List.eq_of_mem_replicate h1 with rfl
    decide
  · exact natDigs_digits n c h1

theorem takeWhile_append_all {p : Char → Bool} (xs ys : List Char)
    (h : ∀ c ∈ xs, p c = true) :
    (xs ++ ys).takeWhile p = xs ++ ys.takeWhile p := by
  induction xs with
  | nil => simp
  | cons x xs ihx =>
    rw [List.cons_append, List.takeWhile_cons, h x (by simp), if_pos rfl,
      ihx (fun c hc => h c (by simp [hc])), List.cons_append]

theorem dropWhile_append_all {p : Char → Bool} (xs ys : List Char)
    (h : ∀ c ∈ xs, p c = true) :
    (xs ++ ys).dropWhile p = ys.dropWhile p := by
  induction xs with
  | nil => simp
  | cons x xs ihx =>
    rw [List.cons_append, List.dropWhile_cons, h x (by simp), if_pos rfl,
      ihx (fun c hc => h c (by simp [hc]))]

theorem takeWhile_head_stop {p : Char → Bool} (ys : List Char)
    (h : ∀ c t, ys = c :: t → p c = false) : ys.takeWhile p = [] := by
  cases ys with
  | nil => rfl
  | cons c t =>
    rw [List.takeWhile_cons, h c t rfl]
    rfl

theorem dropWhile_head_stop {p : Char → Bool} (ys : List Char)
    (h : ∀ c t, ys = c :: t → p c = false) : ys.dropWhile p = ys := by
  cases ys with
  | nil => rfl
  | cons c t =>
    rw [List.dropWhile_cons, h c t rfl]
    rfl

theorem isEmpty_false_of_ne_nil {α : Type} {l : List α} (h : l ≠ []) :
    l.isEmpty = false := by
  cases l with
  | nil => exact absurd rfl h
  | cons a t => rfl

theorem numStop_digits (rest : List Char) (h : numStop rest) :
    ∀ c t, rest = c :: t → isDigitChar c = false := by
  intro c t he
  subst he
  exact h.1


/-- Splitting `takeWhile`/`dropWhile` around a digit run followed by a
non-digit (or empty) remainder. -/
theorem digs_split (ds rest : List Char) (hds : ∀ c ∈ ds, isDigitChar c = true)
    (hstop : ∀ c t, rest = c :: t → isDigitChar c = false) :
    (ds ++ rest).takeWhile isDigitChar = ds ∧
    (ds ++ rest).dropWhile isDigitChar = rest := by
  constructor
  · rw [takeWhile_append_all ds rest hds, takeWhile_head_stop rest hstop,
      List.append_nil]
  · rw [dropWhile_append_all ds rest hds, dropWhile_head_stop rest hstop]

/-- A printed digit run never starts with a minus sign. -/
theorem headOfDigs_ne_dash (m : ℕ) (rest : List Char) :
    ¬((natDigs m ++ rest).head? = some '-') := by
  obtain ⟨c, t, hct⟩ := List.exists_cons_of_ne_nil (natDigs_ne_nil m)
  have hcd : isDigitChar c = true := natDigs_digits _ c (by rw [hct]; simp)
  rw [hct]
  simp only [List.cons_append, List.head?_cons, Option.some.injEq]
  intro he
  rw [he] at hcd
  exact absurd hcd (by decide)

/-- The number parser inverts the number printer: on a well-formed number
followed by a delimiter, `parseNum` returns exactly that number. -/
theorem parseNum_roundtrip (n : JNum) (hn : wf (.num n) = true) (rest : List Char)
    (hstop : numStop rest) : parseNum (numText n ++ rest) = some (n, rest) := by
  have hrstop : ∀ c t, rest = c :: t → isDigitChar c = false := numStop_digits rest hstop
  cases n with
  | int i =>
    rw [wf] at hn
    simp only [Bool.and_eq_true, decide_eq_true_eq] at hn
    by_cases hi : i < 0
    · rw [numText, if_pos hi]
      have hsplit := digs_split (natDigs i.natAbs) rest (natDigs_digits _) hrstop
      rw [parseNum]
      simp only [List.cons_append, List.head?_cons, Option.some.injEq,
        eq_self_iff_true, if_true, List.tail_cons, hsplit.1, hsplit.2,
        isEmpty_false_of_ne_nil (natDigs_ne_nil i.natAbs), Bool.false_eq_true,
        if_false, digsVal_natDigs]
      cases rest with
      | nil =>
        rw [if_pos (show ((i.natAbs : ℤ) ≤ 2 ^ 63) by omega)]
        simp only [Option.some.injEq, Prod.mk.injEq, JNum.int.injEq]
        exact ⟨by omega, trivial⟩
      | cons c t =>
        have hdot : c ≠ '.' := hstop.2
        split
        · rename_i r2 heq
          injection heq with h1 h2
          exact absurd h1 hdot
        · rw [if_pos (show ((i.natAbs : ℤ) ≤ 2 ^ 63) by omega)]
          simp only [Option.some.injEq, Prod.mk.injEq, JNum.int.injEq]
          exact ⟨by omega, trivial⟩
    · rw [numText, if_neg hi]
      have hsplit := digs_split (natDigs i.toNat) rest (natDigs_digits _) hrstop
      rw [parseNum]
      simp only [eq_false (headOfDigs_ne_dash i.toNat rest), if_false,
        hsplit.1, hsplit.2,
        isEmpty_false_of_ne_nil (natDigs_ne_nil i.toNat), Bool.false_eq_true,
        digsVal_natDigs]
      cases rest with
      | nil =>
        rw [if_pos (show ((i.toNat : ℤ) < 2 ^ 64) by omega)]
        simp only [Option.some.injEq, Prod.mk.injEq, JNum.int.injEq]
        exact ⟨by omega, trivial⟩
      | cons c t =>
        have hdot : c ≠ '.' := hstop.2
        split
        · rename_i r2 heq
          injection heq with h1 h2
          exact absurd h1 hdot
        · rw [if_pos (show ((i.toNat : ℤ) < 2 ^ 64) by omega)]
          simp only [Option.some.injEq, Prod.mk.injEq, JNum.int.injEq]
          exact ⟨by omega, trivial⟩
  | float m k =>
    have hP : 0 < 10 ^ (k + 1) := Nat.pos_pow_of_pos _ (by norm_num)
    have hB : m.natAbs % 10 ^ (k + 1) < 10 ^ (k + 1) := Nat.mod_lt _ hP
    have hpadne : padDigs (k + 1) (m.natAbs % 10 ^ (k + 1)) ≠ [] := by
      intro he
      have := padDigs_len (k + 1) (m.natAbs % 10 ^ (k + 1)) (by omega) hB
      rw [he] at this
      simp at this
    have hdsplit := digs_split (natDigs (m.natAbs / 10 ^ (k + 1)))
      ('.' :: (padDigs (k + 1) (m.natAbs % 10 ^ (k + 1)) ++ rest))
      (natDigs_digits _)
      (by intro c t he; injection he with h1 h2; exact h1 ▸ (by decide : isDigitChar '.' = false))
    have hfsplit := digs_split (padDigs (k + 1) (m.natAbs % 10 ^ (k + 1))) rest
      (padDigs_digits _ _) hrstop
    rw [numText]
    try simp only []
    by_cases hm : m < 0
    · rw [if_pos hm, parseNum]
      simp only [List.cons_append, List.append_assoc, List.head?_cons,
        Option.some.injEq, eq_self_iff_true, if_true, List.tail_cons,
        hdsplit.1, hdsplit.2,
        isEmpty_false_of_ne_nil (natDigs_ne_nil (m.natAbs / 10 ^ (k + 1))),
        isEmpty_false_of_ne_nil hpadne,
        Bool.false_eq_true, if_false, digsVal_natDigs,
        hfsplit.1, hfsplit.2, padDigs_val,
        padDigs_len (k + 1) (m.natAbs % 10 ^ (k + 1)) (by omega) hB]
      rw [Nat.div_add_mod' m.natAbs (10 ^ (k + 1))]
      simp only [Option.some.injEq, Prod.mk.injEq, JNum.float.injEq,
        eq_self_iff_true, and_true]
      exact ⟨by omega, by omega⟩
    · rw [if_neg hm, parseNum]
      simp only [List.cons_append, List.append_assoc]
      simp only [eq_false (headOfDigs_ne_dash (m.natAbs / 10 ^ (k + 1))
        ('.' :: (padDigs (k + 1) (m.natAbs % 10 ^ (k + 1)) ++ rest))), if_false,
        hdsplit.1, hdsplit.2,
        isEmpty_false_of_ne_nil (natDigs_ne_nil (m.natAbs / 10 ^ (k + 1))),
        isEmpty_false_of_ne_nil hpadne,
        Bool.false_eq_true, digsVal_natDigs,
        hfsplit.1, hfsplit.2, padDigs_val,
        padDigs_len (k + 1) (m.natAbs % 10 ^ (k + 1)) (by omega) hB]
      rw [Nat.div_add_mod' m.natAbs (10 ^ (k + 1))]
      simp only [Option.some.injEq, Prod.mk.injEq, JNum.float.injEq,
        eq_self_iff_true, and_true]
      exact ⟨by omega, by omega⟩



/-- `hexVal` inverts `hexDigit` on one hex digit. -/
theorem hexVal_hexDigit (d : ℕ) (h : d < 16) : hexVal (hexDigit d) = some d := by
  rw [hexDigit]
  by_cases h10 : d < 10
  · rw [if_pos h10, hexVal]
    simp only [charNat_ofNat (48 + d) (by omega)]
    rw [if_pos (by omega : 48 ≤ 48 + d ∧ 48 + d ≤ 57)]
    simp only [Option.some.injEq]
    omega
  · rw [if_neg h10, hexVal]
    simp only [charNat_ofNat (87 + d) (by omega)]
    rw [if_neg (by omega : ¬(48 ≤ 87 + d ∧ 87 + d ≤ 57))]
    rw [if_pos (by omega : 97 ≤ 87 + d ∧ 87 + d ≤ 102)]
    simp only [Option.some.injEq]
    omega

/-- `hex4Val` inverts `hex4` on four hex digits. -/
theorem hex4Val_hex4 (v : ℕ) (h : v < 0x10000) (rest : List Char) :
    hex4Val (hex4 v ++ rest) = some (v, rest) := by
  rw [hex4]
  simp only [List.cons_append, List.nil_append]
  rw [hex4Val]
  simp only [hexVal_hexDigit (v / 4096 % 16) (by omega),
    hexVal_hexDigit (v / 256 % 16) (by omega),
    hexVal_hexDigit (v / 16 % 16) (by omega),
    hexVal_hexDigit (v % 16) (by omega)]
  show some ((((v / 4096 % 16) * 16 + v / 256 % 16) * 16 + v / 16 % 16) * 16 + v % 16,
    rest) = some (v, rest)
  simp only [Option.some.injEq, Prod.mk.injEq]
  exact ⟨by omega, trivial⟩

/-- `escStr` unfolds one character at a time. -/
theorem escStr_cons (c : Char) (t : List Char) :
    escStr ⟨c :: t⟩ = escChar c ++ escStr ⟨t⟩ := rfl

/-- Escaping a character emits at least one character. -/
theorem escChar_len_pos (c : Char) : 1 ≤ (escChar c).length := by
  rw [escChar]
  split_ifs <;> simp [hex4]

/-- Escaping never shortens a string. -/
theorem len_le_escStr (l : List Char) : l.length ≤ (escStr ⟨l⟩).length := by
  induction l with
  | nil => simp [escStr]
  | cons c t ih =>
    rw [escStr_cons]
    simp only [List.length_cons, List.length_append]
    have := escChar_len_pos c
    omega

/-- String-body parser step on an unescaped character. -/
theorem parseSB_plain (f : ℕ) (c : Char) (X : List Char) (h1 : ¬c = '"')
    (h2 : ¬c = '\\') (h3 : ¬charNat c < 0x20) :
    parseSB (f + 1) (c :: X) = (parseSB f X).map (fun r => (c :: r.1, r.2)) := by
  show (if c = '"' then some ([], X)
    else if c = '\\' then
      match X with
      | [] => none
      | e :: cs2 =>
        if e = 'u' then escU (parseSB f) cs2
        else
          match escMap e with
          | none => none
          | some c2 => (parseSB f cs2).map (fun r => (c2 :: r.1, r.2))
    else if charNat c < 0x20 then none
    else (parseSB f X).map (fun r => (c :: r.1, r.2))) =
      (parseSB f X).map (fun r => (c :: r.1, r.2))
  rw [if_neg h1, if_neg h2, if_neg h3]

/-- String-body parser step into a `\u` escape. -/
theorem parseSB_u (f : ℕ) (cs2 : List Char) :
    parseSB (f + 1) ('\\' :: 'u' :: cs2) = escU (parseSB f) cs2 := rfl

/-- A `\u` escape below the surrogate range decodes to its code point. -/
theorem escU_low (k : List Char → Option (List Char × List Char))
    (xs : List Char) (n : ℕ) (rest : List Char)
    (hx : hex4Val xs = some (n, rest)) (h : n < 0xD800) :
    escU k xs = (k rest).map (fun r => (Char.ofNat n :: r.1, r.2)) := by
  rw [escU, hx]
  split
  · rename_i heq
    exact absurd heq (by simp)
  · rename_i n1 r1 heq
    injection heq with hp
    injection hp with hn hr
    subst hn
    subst hr
    rw [if_neg (by omega : ¬(0xD800 ≤ n ∧ n < 0xDC00))]
    rw [if_neg (by omega : ¬(0xDC00 ≤ n ∧ n < 0xE000))]

/-- A `\u` surrogate pair decodes to the combined supplementary code point. -/
theorem escU_pair (k : List Char → Option (List Char × List Char))
    (hi lo : ℕ) (Y : List Char)
    (hhi : 0xD800 ≤ hi ∧ hi < 0xDC00) (hlo : 0xDC00 ≤ lo ∧ lo < 0xE000) :
    escU k (hex4 hi ++ ('\\' :: 'u' :: (hex4 lo ++ Y))) =
      (k Y).map (fun r =>
        (Char.ofNat (0x10000 + (hi - 0xD800) * 0x400 + (lo - 0xDC00)) :: r.1,
         r.2)) := by
  rw [escU, hex4Val_hex4 hi (by omega) ('\\' :: 'u' :: (hex4 lo ++ Y))]
  split
  · rename_i heq
    exact absurd heq (by simp)
  · rename_i n1 r1 heq
    injection heq with hp
    injection hp with hn hr
    subst hn
    subst hr
    rw [if_pos hhi]
    split
    · rename_i rest2 heq2
      injection heq2 with he1 he2
      injection he2 with he3 he4
      subst he4
      rw [hex4Val_hex4 lo (by omega) Y]
      split
      · rename_i heq3
        exact absurd heq3 (by simp)
      · rename_i n2 r2 heq3
        injection heq3 with hp2
        injection hp2 with hn2 hr2
        subst hn2
        subst hr2
        rw [if_pos hlo]
    · rename_i hne
      exact absurd rfl (hne _)

/-- The string-body parser inverts the escaper: parsing the escaped text of
`l` followed by the closing quote yields exactly `l`. -/
theorem parseSB_esc : ∀ (l : List Char) (fuel : ℕ) (rest : List Char),
    l.length < fuel →
    parseSB fuel (escStr ⟨l⟩ ++ '"' :: rest) = some (l, rest) := by
  intro l
  induction l with
  | nil =>
    intro fuel rest hf
    obtain ⟨f, rfl⟩ : ∃ g, fuel = g + 1 := ⟨fuel - 1, by omega⟩
    rfl
  | cons c t ih =>
    intro fuel rest hf
    obtain ⟨f, rfl⟩ : ∃ g, fuel = g + 1 := ⟨fuel - 1, by omega⟩
    have hf2 : t.length < f := by
      simp only [List.length_cons] at hf
      omega
    by_cases h1 : c = '"'
    · subst h1
      show (parseSB f (escStr ⟨t⟩ ++ '"' :: rest)).map
        (fun r => ('"' :: r.1, r.2)) = some ('"' :: t, rest)
      rw [ih f rest hf2]
      rfl
    · by_cases h2 : c = '\\'
      · subst h2
        show (parseSB f (escStr ⟨t⟩ ++ '"' :: rest)).map
          (fun r => ('\\' :: r.1, r.2)) = some ('\\' :: t, rest)
        rw [ih f rest hf2]
        rfl
      · by_cases h3 : charNat c < 0x20
        · rw [escStr_cons, escChar, if_neg h1, if_neg h2, if_pos h3]
          simp only [List.cons_append, List.append_assoc]
          rw [parseSB_u f (hex4 (charNat c) ++ (escStr ⟨t⟩ ++ '"' :: rest))]
          rw [escU_low (parseSB f) _ (charNat c) (escStr ⟨t⟩ ++ '"' :: rest)
            (hex4Val_hex4 (charNat c) (by omega) _) (by omega)]
          rw [ih f rest hf2]
          simp only [Option.map_some']
          rw [ofNat_charNat]
        · by_cases h4 : 0xFFFF < charNat c
          · have hcv := charNat_valid_range c
            rw [escStr_cons, escChar, if_neg h1, if_neg h2, if_neg h3, if_pos h4]
            simp only [List.cons_append, List.append_assoc]
            rw [parseSB_u]
            rw [escU_pair (parseSB f)
              (0xD800 + (charNat c - 0x10000) / 0x400)
              (0xDC00 + (charNat c - 0x10000) % 0x400)
              (escStr ⟨t⟩ ++ '"' :: rest)
              (by omega) (by omega)]
            rw [ih f rest hf2]
            simp only [Option.map_some']
            rw [show 0x10000 +
              (0xD800 + (charNat c - 0x10000) / 0x400 - 0xD800) * 0x400 +
              (0xDC00 + (charNat c - 0x10000) % 0x400 - 0xDC00) =
              charNat c by omega]
            rw [ofNat_charNat]
          · rw [escStr_cons, escChar, if_neg h1, if_neg h2, if_neg h3, if_neg h4]
            show parseSB (f + 1) (c :: (escStr ⟨t⟩ ++ '"' :: rest)) =
              some (c :: t, rest)
            rw [parseSB_plain f c _ h1 h2 h3, ih f rest hf2]
            rfl



/-- Inserting a key larger than every key present appends it. -/
theorem insertKV_all_lt (kv : String × Json) (acc : List (String × Json))
    (h : ∀ p ∈ acc, strCmp p.1 kv.1 = .lt) : insertKV kv acc = acc ++ [kv] := by
  induction acc with
  | nil => rfl
  | cons p rest ih =>
    have hp := h p (by simp)
    rw [insertKV]
    rw [if_neg (show ¬(kv.1 = p.1) from fun he => by
      rw [he, strCmp_refl] at hp; exact absurd hp (by decide))]
    rw [if_neg (show ¬(strLtb kv.1 p.1 = true) from fun hlt => by
      have h2 := (strLtb_iff _ _).1 hlt
      have h3 := strCmp_swap p.1 kv.1
      rw [hp] at h3
      rw [h2] at h3
      exact absurd h3 (by decide))]
    rw [ih (fun q hq => h q (by simp [hq])), List.cons_append]

/-- The builder fold leaves an already sorted accumulator-plus-input alone. -/
theorem mkObj_foldl_sorted_fix (kvs : List (String × Json)) :
    ∀ acc, List.Pairwise (fun p q : String × Json => strCmp p.1 q.1 = .lt)
      (acc ++ kvs) →
    kvs.foldl (fun a kv => insertKV kv a) acc = acc ++ kvs := by
  induction kvs with
  | nil => intro acc h; rw [List.foldl_nil, List.append_nil]
  | cons kv rest ih =>
    intro acc h
    rw [List.foldl_cons]
    have hlt : ∀ p ∈ acc, strCmp p.1 kv.1 = .lt := by
      intro p hp
      have := (List.pairwise_append.1 h).2.2
      exact this p hp kv (by simp)
    rw [insertKV_all_lt kv acc hlt]
    rw [ih (acc ++ [kv]) (by
      rw [List.append_assoc]
      simpa using h)]
    simp

/-- `mkObj` is the identity on strictly sorted member lists. -/
theorem mkObj_sorted_fix (kvs : List (String × Json))
    (h : sortedKeysB kvs = true) : mkObj kvs = kvs := by
  rw [mkObj, mkObj_foldl_sorted_fix kvs [] (by simpa using (sortedKeysB_iff kvs).1 h)]
  rfl

/-- No character at or above code 34 is JSON whitespace. -/
theorem not_ws_of_charNat_ge (c : Char) (h : 34 ≤ charNat c) :
    isWsChar c = false := by
  have h1 : c ≠ ' ' := fun he => by rw [he] at h; exact absurd h (by decide)
  have h2 : c ≠ '\t' := fun he => by rw [he] at h; exact absurd h (by decide)
  have h3 : c ≠ '\n' := fun he => by rw [he] at h; exact absurd h (by decide)
  have h4 : c ≠ '\r' := fun he => by rw [he] at h; exact absurd h (by decide)
  simp [isWsChar, h1, h2, h3, h4]

/-- `skipWs` is the identity when the head is not whitespace. -/
theorem skipWs_cons_not_ws (c : Char) (l : List Char) (h : isWsChar c = false) :
    skipWs (c :: l) = c :: l := by
  simp [skipWs, List.dropWhile_cons, h]

/-- A printed number starts with a minus sign or a digit. -/
theorem numText_head (n : JNum) : ∃ c t, numText n = c :: t ∧
    (charNat c = 45 ∨ (48 ≤ charNat c ∧ charNat c ≤ 57)) := by
  cases n with
  | int i =>
    by_cases hi : i < 0
    · exact ⟨'-', _, by rw [numText, if_pos hi], Or.inl rfl⟩
    · obtain ⟨c, t, hct⟩ := List.exists_cons_of_ne_nil (natDigs_ne_nil i.toNat)
      have hcd := natDigs_digits i.toNat c (by rw [hct]; simp)
      simp only [isDigitChar, Bool.and_eq_true, decide_eq_true_eq] at hcd
      exact ⟨c, t, by rw [numText, if_neg hi, hct], Or.inr hcd⟩
  | float m k =>
    by_cases hm : m < 0
    · refine ⟨'-', natDigs (m.natAbs / 10 ^ (k + 1)) ++
        '.' :: padDigs (k + 1) (m.natAbs % 10 ^ (k + 1)), ?_, Or.inl rfl⟩
      rw [numText]
      try simp only []
      rw [if_pos hm]
    · obtain ⟨c, t, hct⟩ :=
        List.exists_cons_of_ne_nil (natDigs_ne_nil (m.natAbs / 10 ^ (k + 1)))
      have hcd := natDigs_digits (m.natAbs / 10 ^ (k + 1)) c (by rw [hct]; simp)
      simp only [isDigitChar, Bool.and_eq_true, decide_eq_true_eq] at hcd
      refine ⟨c, t ++ '.' :: padDigs (k + 1) (m.natAbs % 10 ^ (k + 1)), ?_, Or.inr hcd⟩
      rw [numText]
      try simp only []
      rw [if_neg hm, hct, List.cons_append]

/-- The first character of printed text is never whitespace, `]` or `}`. -/
theorem printV_head (j : Json) : ∃ c t, printV j = c :: t ∧
    34 ≤ charNat c ∧ charNat c ≠ 93 ∧ charNat c ≠ 125 := by
  cases j with
  | num n =>
    obtain ⟨c, t, hct, hcl⟩ := numText_head n
    refine ⟨c, t, hct, ?_, ?_, ?_⟩ <;> omega
  | null => exact ⟨_, _, rfl, by decide⟩
  | bool b => cases b <;> exact ⟨_, _, rfl, by decide⟩
  | str s => exact ⟨_, _, rfl, by decide⟩
  | arr xs => cases xs <;> exact ⟨_, _, rfl, by decide⟩
  | obj kvs => cases kvs <;> exact ⟨_, _, rfl, by decide⟩

/-- Printed array continuations start with `,` or `]`, a number delimiter. -/
theorem numStop_printL_close (xs : List Json) (rest : List Char) :
    numStop (printL xs ++ ']' :: rest) := by
  cases xs with
  | nil => exact ⟨by decide, by decide⟩
  | cons x t => exact ⟨by decide, by decide⟩

/-- Printed object continuations start with `,` or `}`, a number delimiter. -/
theorem numStop_printKVs_close (ps : List (String × Json)) (rest : List Char) :
    numStop (printKVs ps ++ '}' :: rest) := by
  cases ps with
  | nil => exact ⟨by decide, by decide⟩
  | cons p t => exact ⟨by decide, by decide⟩

/-- Every value needs at least one unit of parser fuel. -/
theorem sizeJ_pos (j : Json) : 1 ≤ sizeJ j := by
  cases j <;> simp [sizeJ]

/-- Element-tail fuel is bounded by printed length. -/
theorem sizeL_le_printL (l : List Json)
    (hIH : ∀ x ∈ l, sizeJ x ≤ (printV x).length) :
    sizeL l ≤ (printL l).length := by
  induction l with
  | nil => simp [sizeL, printL]
  | cons x xs ih =>
    rw [sizeL, printL]
    simp only [List.length_cons, List.length_append]
    have h1 := hIH x (by simp)
    have h2 := ih (fun y hy => hIH y (by simp [hy]))
    omega

/-- Member-tail fuel is bounded by printed length. -/
theorem sizeKV_le_printKVs (l : List (String × Json))
    (hIH : ∀ p ∈ l, sizeJ p.2 ≤ (printV p.2).length) :
    sizeKV l ≤ (printKVs l).length := by
  induction l with
  | nil => simp [sizeKV, printKVs]
  | cons p ps ih =>
    obtain ⟨k, v⟩ := p
    rw [sizeKV, printKVs, printKV]
    simp only [List.length_cons, List.length_append]
    have h1 : sizeJ v ≤ (printV v).length := hIH (k, v) (by simp)
    have h2 := ih (fun q hq => hIH q (by simp [hq]))
    omega

/-- Auxiliary induction: parser fuel is bounded by printed length. -/
theorem sizeJ_le_aux (N : ℕ) : ∀ j : Json, sizeOf j ≤ N →
    sizeJ j ≤ (printV j).length := by
  induction N with
  | zero =>
    intro j h
    have := json_sizeOf_pos j
    omega
  | succ N ihN =>
    intro j h
    cases j with
    | null => decide
    | bool b => cases b <;> decide
    | num n =>
      rw [sizeJ]
      show 1 ≤ (numText n).length
      obtain ⟨c, t, hct, _⟩ := numText_head n
      rw [hct]
      simp
    | str s =>
      rw [sizeJ, printV]
      simp
    | arr xs =>
      have hIH : ∀ x ∈ xs, sizeJ x ≤ (printV x).length := by
        intro x hx
        have := elem_sizeOf_lt hx
        exact ihN x (by omega)
      have hL := sizeL_le_printL xs hIH
      cases xs with
      | nil => decide
      | cons x t =>
        rw [sizeJ, printV]
        rw [sizeL, printL] at hL
        simp only [List.length_cons, List.length_append] at hL ⊢
        rw [sizeL]
        omega
    | obj kvs =>
      have hIH : ∀ p ∈ kvs, sizeJ p.2 ≤ (printV p.2).length := by
        intro p hp
        have := kv_sizeOf_lt hp
        exact ihN p.2 (by omega)
      have hL := sizeKV_le_printKVs kvs hIH
      cases kvs with
      | nil => decide
      | cons p t =>
        rw [sizeJ, printV]
        rw [sizeKV, printKVs] at hL
        simp only [List.length_cons, List.length_append] at hL ⊢
        rw [sizeKV]
        omega

/-- The fuel a value needs is at most the length of its printed text. -/
theorem sizeJ_le_printV (j : Json) : sizeJ j ≤ (printV j).length :=
  sizeJ_le_aux (sizeOf j) j le_rfl



/-- Value-parser dispatch: a digit-headed input goes to the number parser. -/
theorem parseV_step_digit (fuel : ℕ) (c : Char) (l : List Char)
    (hd : isDigitChar c = true) :
    parseV (fuel + 1) (c :: l) =
      (parseNum (c :: l)).map (fun r => (Json.num r.1, r.2)) := by
  simp only [isDigitChar, Bool.and_eq_true, decide_eq_true_eq] at hd
  have hnw : isWsChar c = false := not_ws_of_charNat_ge c (by omega)
  rw [parseV]
  rw [skipWs_cons_not_ws c l hnw]
  split
  all_goals try rfl
  all_goals rename_i heq
  all_goals injection heq with h1 h2
  all_goals subst h1
  all_goals exact absurd hd (by decide)

/-- Value-parser dispatch: a minus-headed input goes to the number parser. -/
theorem parseV_step_dash (fuel : ℕ) (l : List Char) :
    parseV (fuel + 1) ('-' :: l) =
      (parseNum ('-' :: l)).map (fun r => (Json.num r.1, r.2)) := rfl

/-- Value-parser dispatch on an opening quote. -/
theorem parseV_step_quote (fuel : ℕ) (rest : List Char) :
    parseV (fuel + 1) ('"' :: rest) =
      (parseSB (rest.length + 1) rest).map (fun r => (Json.str ⟨r.1⟩, r.2)) := rfl

/-- Value-parser dispatch on an opening bracket. -/
theorem parseV_step_arr (fuel : ℕ) (rest : List Char) :
    parseV (fuel + 1) ('[' :: rest) =
      (match skipWs rest with
       | ']' :: rest2 => some (Json.arr [], rest2)
       | cs2 => (parseItems fuel cs2).map (fun r => (Json.arr r.1, r.2))) := rfl

/-- Value-parser dispatch on an opening brace. -/
theorem parseV_step_obj (fuel : ℕ) (rest : List Char) :
    parseV (fuel + 1) ('{' :: rest) =
      (match skipWs rest with
       | '}' :: rest2 => some (Json.obj [], rest2)
       | cs2 => (parseMembers fuel cs2).map
           (fun r => (Json.obj (mkObj r.1), r.2))) := rfl

/-- The parser inverts the printer: by simultaneous induction on fuel, a
well-formed value printed and followed by a delimiter parses back to itself,
and likewise for non-empty printed element and member tails up to their
closing bracket or brace. -/
theorem parse_print_aux : ∀ fuel : ℕ,
    (∀ j rest, wf j = true → sizeJ j ≤ fuel → numStop rest →
      parseV fuel (printV j ++ rest) = some (j, rest)) ∧
    (∀ x xs rest, wfL (x :: xs) = true → sizeL (x :: xs) ≤ fuel →
      parseItems fuel (printV x ++ (printL xs ++ ']' :: rest)) =
        some (x :: xs, rest)) ∧
    (∀ p ps rest, wfKV (p :: ps) = true → sizeKV (p :: ps) ≤ fuel →
      parseMembers fuel (printKV p ++ (printKVs ps ++ '}' :: rest)) =
        some (p :: ps, rest)) := by
  intro fuel
  induction fuel with
  | zero =>
    refine ⟨?_, ?_, ?_⟩
    · intro j rest _ hsz _
      have := sizeJ_pos j
      omega
    · intro x xs rest _ hsz
      have h2 : 1 + sizeJ x + sizeL xs ≤ 0 := hsz
      have := sizeJ_pos x
      omega
    · intro p ps rest _ hsz
      have h2 : 1 + sizeJ p.2 + sizeKV ps ≤ 0 := hsz
      omega
  | succ fuel ih =>
    obtain ⟨ihV, ihI, ihM⟩ := ih
    refine ⟨?_, ?_, ?_⟩
    · intro j rest hwf hsz hstop
      cases j with
      | null => rfl
      | bool b => cases b <;> rfl
      | num n =>
        obtain ⟨c, t, hct, hcl⟩ := numText_head n
        show parseV (fuel + 1) (numText n ++ rest) = some (.num n, rest)
        rw [hct, List.cons_append]
        rcases hcl with hc | hc
        · have hdash : c = '-' := charNat_inj (h := hc)
          subst hdash
          rw [parseV_step_dash]
          rw [← List.cons_append, ← hct, parseNum_roundtrip n hwf rest hstop]
          rfl
        · have hcd : isDigitChar c = true := by
            simp only [isDigitChar, Bool.and_eq_true, decide_eq_true_eq]
            omega
          rw [parseV_step_digit fuel c _ hcd]
          rw [← List.cons_append, ← hct, parseNum_roundtrip n hwf rest hstop]
          rfl
      | str s =>
        obtain ⟨l⟩ := s
        show parseV (fuel + 1) ('"' :: ((escStr ⟨l⟩ ++ ['"']) ++ rest)) =
          some (.str ⟨l⟩, rest)
        rw [parseV_step_quote, List.append_assoc, List.singleton_append]
        rw [parseSB_esc l _ rest (by
          have h1 := len_le_escStr l
          simp only [List.length_append, List.length_cons]
          omega)]
        rfl
      | arr xs =>
        cases xs with
        | nil => rfl
        | cons x t =>
          show parseV (fuel + 1)
            ('[' :: ((printV x ++ printL t ++ [']']) ++ rest)) =
            some (.arr (x :: t), rest)
          rw [parseV_step_arr]
          rw [show (printV x ++ printL t ++ [']']) ++ rest =
            printV x ++ (printL t ++ (']' :: rest)) by simp]
          obtain ⟨c, ct, hct, hge, hne93, hne125⟩ := printV_head x
          rw [hct, List.cons_append,
            skipWs_cons_not_ws c _ (not_ws_of_charNat_ge c hge)]
          split
          · rename_i rest2 heq
            injection heq with he1 he2
            exact absurd (show charNat c = 93 by rw [he1]; decide) hne93
          · rw [← List.cons_append, ← hct]
            have hL : wfL (x :: t) = true := hwf
            have hsz2 : sizeL (x :: t) ≤ fuel := by
              have h2 : 1 + sizeL (x :: t) ≤ fuel + 1 := hsz
              omega
            rw [ihI x t rest hL hsz2]
            rfl
      | obj kvs =>
        cases kvs with
        | nil => rfl
        | cons p ps =>
          show parseV (fuel + 1)
            ('{' :: ((printKV p ++ printKVs ps ++ ['}']) ++ rest)) =
            some (.obj (p :: ps), rest)
          rw [parseV_step_obj]
          rw [show (printKV p ++ printKVs ps ++ ['}']) ++ rest =
            printKV p ++ (printKVs ps ++ ('}' :: rest)) by simp]
          obtain ⟨k, v⟩ := p
          rw [printKV, List.cons_append,
            skipWs_cons_not_ws '"' _ (by decide)]
          split
          · rename_i rest2 heq
            injection heq with he1 he2
            exact absurd he1 (by decide)
          · rw [← List.cons_append, ← printKV]
            have hB : (sortedKeysB ((k, v) :: ps) && wfKV ((k, v) :: ps)) = true := hwf
            simp only [Bool.and_eq_true] at hB
            have hsz2 : sizeKV ((k, v) :: ps) ≤ fuel := by
              have h2 : 1 + sizeKV ((k, v) :: ps) ≤ fuel + 1 := hsz
              omega
            rw [ihM (k, v) ps rest hB.2 hsz2]
            simp only [Option.map_some']
            rw [mkObj_sorted_fix _ hB.1]
    · intro x xs rest hwf hsz
      have hand : (wf x && wfL xs) = true := hwf
      simp only [Bool.and_eq_true] at hand
      have hszL : 1 + sizeJ x + sizeL xs ≤ fuel + 1 := hsz
      rw [parseItems]
      have hV := ihV x (printL xs ++ ']' :: rest) hand.1 (by omega)
        (numStop_printL_close xs rest)
      rw [hV]
      cases xs with
      | nil => rfl
      | cons y ys =>
        show (parseItems fuel ((printV y ++ printL ys) ++ (']' :: rest))).map
          (fun r => (x :: r.1, r.2)) = some (x :: y :: ys, rest)
        rw [List.append_assoc]
        have hand2 : (wf y && wfL ys) = true := hand.2
        simp only [Bool.and_eq_true] at hand2
        have hszL2 : 1 + sizeJ y + sizeL ys ≤ fuel := by
          have h3 : 1 + sizeJ x + (1 + sizeJ y + sizeL ys) ≤ fuel + 1 := hsz
          have := sizeJ_pos x
          omega
        rw [ihI y ys rest hand.2 (by exact hszL2)]
        rfl
    · intro p ps rest hwf hsz
      obtain ⟨k, v⟩ := p
      obtain ⟨kl⟩ := k
      have hand : (wf v && wfKV ps) = true := hwf
      simp only [Bool.and_eq_true] at hand
      have hszKV : 1 + sizeJ v + sizeKV ps ≤ fuel + 1 := hsz
      rw [parseMembers, printKV, List.cons_append,
        skipWs_cons_not_ws '"' _ (by decide)]
      split
      · rename_i rest1 heq
        injection heq with he1 he2
        subst he2
        rw [show (escStr ⟨kl⟩ ++ '"' :: ':' :: printV v) ++
            (printKVs ps ++ '}' :: rest) =
          escStr ⟨kl⟩ ++ ('"' :: (':' :: (printV v ++ (printKVs ps ++ '}' :: rest))))
          by simp]
        rw [parseSB_esc kl _ _ (by
          have h1 := len_le_escStr kl
          simp only [List.length_append, List.length_cons]
          omega)]
        split
        · rename_i heq2
          exact absurd heq2 (by simp)
        · rename_i k2 rest2 heq2
          injection heq2 with hp
          injection hp with hk hr
          subst hk
          subst hr
          rw [skipWs_cons_not_ws ':' _ (by decide)]
          split
          · rename_i rest3 heq3
            injection heq3 with he3 he4
            subst he4
            have hV := ihV v (printKVs ps ++ '}' :: rest) hand.1 (by omega)
              (numStop_printKVs_close ps rest)
            rw [hV]
            cases ps with
            | nil => rfl
            | cons q qs =>
              show (parseMembers fuel ((printKV q ++ printKVs qs) ++
                  ('}' :: rest))).map
                (fun r => ((⟨kl⟩, v) :: r.1, r.2)) = some ((⟨kl⟩, v) :: q :: qs, rest)
              rw [List.append_assoc]
              have hand2 : (wf q.2 && wfKV qs) = true := hand.2
              have hszKV2 : sizeKV (q :: qs) ≤ fuel := by
                have h3 : 1 + sizeJ v + (1 + sizeJ q.2 + sizeKV qs) ≤ fuel + 1 := hsz
                have := sizeJ_pos v
                have h4 : 1 + sizeJ q.2 + sizeKV qs ≤ fuel := by omega
                exact h4
              rw [ihM q qs rest hand.2 hszKV2]
              rfl
          · rename_i hne
            exact absurd rfl (hne _)
      · rename_i hne
        exact absurd rfl (hne _)

/-- The comparator is reflexive: every value compares `eq` to itself. -/
theorem jcmp_refl (j : Json) : jcmp j j = .eq := by
  have h := jcmp_swap j j
  cases he : jcmp j j with
  | lt => rw [he] at h; exact absurd h (by decide)
  | eq => rfl
  | gt => rw [he] at h; exact absurd h (by decide)

/-- C1: for every well-formed owned value `j`, parsing the compact printed
text of `j` (the `Display` output fed back through `Value::from_text`)
succeeds and yields exactly `j`, which is logically equal to `j`
(`jcmp j j = eq`). -/
theorem C1_roundtrip (j : Json) (h : wf j = true) :
    parseJson (printJson j) = some j ∧ jcmp j j = .eq := by
  constructor
  · have hV := (parse_print_aux ((printV j).length + 1)).1 j [] h
      (by have := sizeJ_le_printV j; omega) trivial
    rw [List.append_nil] at hV
    show (match parseV ((printV j).length + 1) (printV j) with
      | none => none
      | some (j2, rest) => if (skipWs rest).isEmpty then some j2 else none) = some j
    rw [hV]
    rfl
  · exact jcmp_refl j

/-- Witness for C1: the roundtrip theorem applied at a concrete well-formed
object holding an integer, an array, null, a string and a negative float. -/
theorem C1_roundtrip_witness :
    wf (Json.obj [("a", Json.num (.int 1)),
      ("b", Json.arr [Json.null, Json.str "x", Json.num (.float (-25) 0)])]) = true ∧
    (parseJson (printJson (Json.obj [("a", Json.num (.int 1)),
        ("b", Json.arr [Json.null, Json.str "x", Json.num (.float (-25) 0)])])) =
      some (Json.obj [("a", Json.num (.int 1)),
        ("b", Json.arr [Json.null, Json.str "x", Json.num (.float (-25) 0)])]) ∧
      jcmp (Json.obj [("a", Json.num (.int 1)),
          ("b", Json.arr [Json.null, Json.str "x", Json.num (.float (-25) 0)])])
        (Json.obj [("a", Json.num (.int 1)),
          ("b", Json.arr [Json.null, Json.str "x", Json.num (.float (-25) 0)])]) =
        .eq) :=
  ⟨by decide, C1_roundtrip _ (by decide)⟩

end Jsonbb
